import Mathlib

/-!
# Anthem index filter (`main.go`)

A shallow embedding of the streaming filter of `main.go`: the input file is read
line by line, each line (minus its last two bytes) is decoded as one
`ReportingStructure`, and the locations of the in-network files that pass the
plan and file patterns are written to the output file.

Go strings and byte slices are lists of bytes. The four regular expressions of
`main` are compiled from their pattern text by `MustCompile`; they are all
sequences of one-byte matchers. The JSON decoder is a function from bytes to an
optional record: the loop is stated over an arbitrary decoder, and
`jsonUnmarshal` is a concrete one used to evaluate whole input files.
-/

namespace Main

/-- Go `[]byte` and `string`: a sequence of bytes. -/
abbrev Bytes := List UInt8

/-- The bytes of a string literal (UTF-8, as in Go source text). -/
def lit (s : String) : Bytes := s.data.flatMap String.utf8EncodeChar

/-- The struct `FileLocation`. -/
structure FileLocation where
  Description : Bytes
  Location : Bytes
deriving DecidableEq, Repr

/-- The struct `ReportingPlan`. -/
structure ReportingPlan where
  PlanName : Bytes
  PlanIdType : Bytes
  PlanId : Bytes
  PlanMarketType : Bytes
deriving DecidableEq, Repr

/-- The struct `ReportingStructure`. -/
structure ReportingStructure where
  ReportingPlans : List ReportingPlan
  InNetworkFiles : List FileLocation
  AllowedAmountFile : FileLocation
deriving DecidableEq, Repr

/-! ## Regular expressions -/

/-- One step of a compiled pattern: a literal byte, or the class `\s`. -/
inductive Inst where
  | byte (b : UInt8)
  | space
deriving DecidableEq, Repr

/-- The class `\s` of Go's regexp syntax: `[\t\n\f\r ]`. -/
def isSpace (b : UInt8) : Bool :=
  b == 9 || b == 10 || b == 12 || b == 13 || b == 32

/-- Whether one pattern step accepts one input byte. -/
def Inst.accepts : Inst → UInt8 → Bool
  | .byte c, b => b == c
  | .space, b => isSpace b

/-- The fragment of `regexp.MustCompile` that `main` uses: a pattern is a
sequence of literal bytes, of escaped punctuation (`\.`) and of `\s`. -/
def MustCompile : Bytes → List Inst
  | [] => []
  | 92 :: 115 :: rest => Inst.space :: MustCompile rest
  | 92 :: c :: rest => Inst.byte c :: MustCompile rest
  | c :: rest => Inst.byte c :: MustCompile rest

/-- The pattern matches at the very start of the input. -/
def matchHere : List Inst → Bytes → Bool
  | [], _ => true
  | _ :: _, [] => false
  | i :: is, b :: bs => i.accepts b && matchHere is bs

/-- The method `(*Regexp).MatchString`: the pattern matches somewhere in the input. -/
def MatchString (re : List Inst) : Bytes → Bool
  | [] => matchHere re []
  | b :: bs => matchHere re (b :: bs) || MatchString re bs

def planNyPattern : List Inst := MustCompile (lit "\\sNY\\s")
def planPpoPattern : List Inst := MustCompile (lit "\\sPPO\\s")
def fileNyPattern : List Inst := MustCompile (lit "NY")
def s3Pattern : List Inst := MustCompile (lit "s3\\.amazonaws\\.com")

/-! ## The loop body -/

/-- The variables of `main` that the loop changes or reads: the map
`fileTracker` (keys with their counts) and the strings passed to
`outFile.WriteString`, in call order. -/
structure State where
  fileTracker : List (Bytes × Int)
  outFile : List Bytes
deriving DecidableEq, Repr

/-- The lookup `_, ok := fileTracker[key]`. -/
def hasKey (m : List (Bytes × Int)) (key : Bytes) : Bool :=
  m.any (fun kv => kv.1 == key)

/-- Body of `for _, file := range record.InNetworkFiles` (lines 72 to 83). -/
def visitFile (st : State) (file : FileLocation) : State :=
  let fileHasS3 := MatchString s3Pattern file.Location
  let fileHasNy := MatchString fileNyPattern file.Location
  if fileHasS3 && fileHasNy then
    if !hasKey st.fileTracker file.Description then
      { st with outFile := st.outFile ++ [file.Location ++ lit "\n"] }
    else
      st
  else
    st

/-- Body of `for _, plan := range record.ReportingPlans` (lines 68 to 85). -/
def visitPlan (files : List FileLocation) (st : State) (plan : ReportingPlan) : State :=
  let planHasNy := MatchString planNyPattern plan.PlanName
  let planHasPpo := MatchString planPpoPattern plan.PlanName
  if planHasNy && planHasPpo then
    files.foldl visitFile st
  else
    st

/-- The two nested loops over a decoded record (lines 67 to 86). -/
def processRecord (st : State) (record : ReportingStructure) : State :=
  record.ReportingPlans.foldl (visitPlan record.InNetworkFiles) st

/-- Lines 63 to 86 for one line returned by the reader: `none` is the run-time
panic of the slice expression `line[:len(line)-2]` on a line shorter than two
bytes; a line that does not decode leaves the state as it is (`continue`). -/
def lineStep (unmarshal : Bytes → Option ReportingStructure) (st : State) (line : Bytes) :
    Option State :=
  if line.length < 2 then
    none
  else
    match unmarshal (line.take (line.length - 2)) with
    | none => some st
    | some record => some (processRecord st record)

/-! ## The reader and the loop -/

/-- The method `(*bufio.Reader).ReadBytes`: the bytes up to and including the
first `delim`, the bytes left in the reader, and whether `delim` was found
(when it was not, the data read so far is returned with the error). -/
def ReadBytes (delim : UInt8) : Bytes → Bytes × Bytes × Bool
  | [] => ([], [], false)
  | b :: bs =>
    if b = delim then ([b], bs, true)
    else
      let r := ReadBytes delim bs
      (b :: r.1, r.2.1, r.2.2)

/-- How the run ends. -/
inductive Exit where
  /-- `break` on `io.EOF` -/
  | eof
  /-- `log.Fatal` on another read error -/
  | fatal
  /-- run-time panic: slice bounds out of range -/
  | sliceBounds
  /-- the iteration bound of the model was reached -/
  | outOfFuel
deriving DecidableEq, Repr

/-- The `for` loop of `main` (lines 51 to 87), at most `fuel` iterations.
`input` is what is left of the file and `readErr` tells whether the file ends
in a read error instead of end-of-file. -/
def loop (unmarshal : Bytes → Option ReportingStructure) (readErr : Bool) :
    Nat → Bytes → State → Exit × State
  | 0, _, st => (Exit.outOfFuel, st)
  | fuel + 1, input, st =>
    match ReadBytes 10 input with
    | (line, rest, true) =>
      match lineStep unmarshal st line with
      | none => (Exit.sliceBounds, st)
      | some st1 => loop unmarshal readErr fuel rest st1
    | (_, _, false) => (if readErr then Exit.fatal else Exit.eof, st)

/-- The loop started as `main` starts it: empty `fileTracker`, nothing written,
and one iteration more than the input has bytes. -/
def run (unmarshal : Bytes → Option ReportingStructure) (readErr : Bool) (input : Bytes) :
    Exit × State :=
  loop unmarshal readErr (input.length + 1) input ⟨[], []⟩

/-- The content of the output file when every write succeeds. -/
def output (st : State) : Bytes := st.outFile.flatten

/-! ## The JSON decoder

`json.Unmarshal` belongs to Go's standard library. `jsonUnmarshal` follows its
documented behaviour for the target type `ReportingStructure`: the whole input
must be one valid JSON text; object keys are matched to the field tags ignoring
case; keys without a field are skipped; `null` leaves the target as it is; a
JSON value of the wrong kind for its field is an error. Where one object
repeats the key of a slice field, the last array is the field's value. The
decoder's bound on nesting depth is not part of the model.
-/

/-- A parsed JSON text. Numbers are only validated: no field of the record takes one. -/
inductive Json where
  | null
  | bool (b : Bool)
  | number
  | str (s : Bytes)
  | arr (xs : List Json)
  | obj (kvs : List (Bytes × Json))

/-- JSON insignificant whitespace: space, tab, carriage return, line feed. -/
def skipWs : Bytes → Bytes
  | [] => []
  | b :: bs => if b == 32 || b == 9 || b == 13 || b == 10 then skipWs bs else b :: bs

/-- Value of a hexadecimal digit. -/
def hexVal (b : UInt8) : Option Nat :=
  if 48 ≤ b ∧ b ≤ 57 then some (b.toNat - 48)
  else if 97 ≤ b ∧ b ≤ 102 then some (b.toNat - 87)
  else if 65 ≤ b ∧ b ≤ 70 then some (b.toNat - 55)
  else none

/-- The number written by four hexadecimal digits. -/
def hex4 (a b c d : UInt8) : Option Nat :=
  match hexVal a, hexVal b, hexVal c, hexVal d with
  | some x, some y, some z, some w => some (((x * 16 + y) * 16 + z) * 16 + w)
  | _, _, _, _ => none

/-- The text of a string literal after its opening quote: the raw bytes up to
the closing quote, and the input after it. Control bytes and escapes other than
the JSON ones are rejected. -/
def scanString : Bytes → Option (Bytes × Bytes)
  | [] => none
  | 34 :: rest => some ([], rest)
  | 92 :: 117 :: a :: b :: c :: d :: rest =>
    match hex4 a b c d, scanString rest with
    | some _, some (raw, r) => some (92 :: 117 :: a :: b :: c :: d :: raw, r)
    | _, _ => none
  | 92 :: e :: rest =>
    if e == 34 || e == 92 || e == 47 || e == 98 || e == 102 || e == 110 || e == 114
        || e == 116 then
      match scanString rest with
      | some (raw, r) => some (92 :: e :: raw, r)
      | none => none
    else none
  | b :: rest =>
    if b < 32 || b == 92 then none
    else
      match scanString rest with
      | some (raw, r) => some (b :: raw, r)
      | none => none

/-- UTF-8 encoding of a code point (`utf8.EncodeRune`): surrogates and values
above U+10FFFF are written as U+FFFD. -/
def encodeRune (r : Nat) : Bytes :=
  if r < 128 then [r.toUInt8]
  else if r < 2048 then [(192 + r / 64).toUInt8, (128 + r % 64).toUInt8]
  else if (55296 ≤ r ∧ r < 57344) ∨ 1114111 < r then [239, 191, 189]
  else if r < 65536 then
    [(224 + r / 4096).toUInt8, (128 + r / 64 % 64).toUInt8, (128 + r % 64).toUInt8]
  else
    [(240 + r / 262144).toUInt8, (128 + r / 4096 % 64).toUInt8, (128 + r / 64 % 64).toUInt8,
      (128 + r % 64).toUInt8]

/-- Whether a byte is a UTF-8 continuation byte in the range `lo..hi`. -/
def cont (lo hi : UInt8) (b : UInt8) : Bool := decide (lo ≤ b) && decide (b ≤ hi)

/-- The number of bytes of the well-formed UTF-8 sequence at the start of the
input, or `none` when the first byte does not start one (`utf8.DecodeRune`
then yields U+FFFD of width one). -/
def runeLen : Bytes → Option Nat
  | [] => none
  | b0 :: rest =>
    if b0 < 128 then some 1
    else if 194 ≤ b0 ∧ b0 ≤ 223 then
      match rest with
      | b1 :: _ => if cont 128 191 b1 then some 2 else none
      | _ => none
    else if 224 ≤ b0 ∧ b0 ≤ 239 then
      match rest with
      | b1 :: b2 :: _ =>
        let lo : UInt8 := if b0 == 224 then 160 else 128
        let hi : UInt8 := if b0 == 237 then 159 else 191
        if cont lo hi b1 && cont 128 191 b2 then some 3 else none
      | _ => none
    else if 240 ≤ b0 ∧ b0 ≤ 244 then
      match rest with
      | b1 :: b2 :: b3 :: _ =>
        let lo : UInt8 := if b0 == 240 then 144 else 128
        let hi : UInt8 := if b0 == 244 then 143 else 191
        if cont lo hi b1 && cont 128 191 b2 && cont 128 191 b3 then some 4 else none
      | _ => none
    else none

/-- The value of a scanned string literal: escapes are replaced, a surrogate
pair of `\u` escapes is one code point, a lone surrogate and every byte that
is not part of well-formed UTF-8 become U+FFFD. -/
def unquote : Nat → Bytes → Bytes
  | 0, _ => []
  | _ + 1, [] => []
  | n + 1, 92 :: 117 :: a :: b :: c :: d :: rest =>
    match hex4 a b c d with
    | none => []
    | some r =>
      if 55296 ≤ r ∧ r < 57344 then
        match rest with
        | 92 :: 117 :: a2 :: b2 :: c2 :: d2 :: rest2 =>
          match hex4 a2 b2 c2 d2 with
          | some r2 =>
            if r < 56320 ∧ 56320 ≤ r2 ∧ r2 < 57344 then
              encodeRune ((r - 55296) * 1024 + (r2 - 56320) + 65536) ++ unquote n rest2
            else [239, 191, 189] ++ unquote n rest
          | none => [239, 191, 189] ++ unquote n rest
        | _ => [239, 191, 189] ++ unquote n rest
      else encodeRune r ++ unquote n rest
  | n + 1, 92 :: e :: rest =>
    let c : UInt8 :=
      if e == 98 then 8 else if e == 102 then 12 else if e == 110 then 10
      else if e == 114 then 13 else if e == 116 then 9 else e
    c :: unquote n rest
  | n + 1, b :: rest =>
    match runeLen (b :: rest) with
    | some k => (b :: rest).take k ++ unquote n ((b :: rest).drop k)
    | none => [239, 191, 189] ++ unquote n rest

/-- Skips a run of decimal digits. -/
def skipDigits : Bytes → Bytes
  | [] => []
  | b :: bs => if 48 ≤ b ∧ b ≤ 57 then skipDigits bs else b :: bs

/-- At least one decimal digit, then the rest of the run. -/
def digits1 : Bytes → Option Bytes
  | b :: bs => if 48 ≤ b ∧ b ≤ 57 then some (skipDigits bs) else none
  | [] => none

/-- The optional fraction and exponent of a number. -/
def scanFracExp (inp : Bytes) : Option Bytes :=
  let afterFrac : Option Bytes :=
    match inp with
    | 46 :: r => digits1 r
    | r => some r
  match afterFrac with
  | none => none
  | some (e :: r) =>
    if e == 101 || e == 69 then
      match r with
      | s :: r1 => if s == 43 || s == 45 then digits1 r1 else digits1 (s :: r1)
      | [] => none
    else some (e :: r)
  | some [] => some []

/-- A JSON number: optional minus, `0` or a digit run without leading zero,
optional fraction, optional exponent. Returns the input after it. -/
def scanNumber (inp : Bytes) : Option Bytes :=
  let body : Bytes := match inp with
    | 45 :: r => r
    | r => r
  match body with
  | 48 :: r => scanFracExp r
  | b :: r => if 49 ≤ b ∧ b ≤ 57 then scanFracExp (skipDigits r) else none
  | [] => none

mutual
/-- One JSON value at the start of the input, and the input after it. -/
def parseValue : Nat → Bytes → Option (Json × Bytes)
  | 0, _ => none
  | n + 1, 123 :: rest =>
    match skipWs rest with
    | 125 :: r => some (Json.obj [], r)
    | r =>
      match parseMembers n r with
      | some (kvs, r1) => some (Json.obj kvs, r1)
      | none => none
  | n + 1, 91 :: rest =>
    match skipWs rest with
    | 93 :: r => some (Json.arr [], r)
    | r =>
      match parseElems n r with
      | some (xs, r1) => some (Json.arr xs, r1)
      | none => none
  | _ + 1, 34 :: rest =>
    match scanString rest with
    | some (raw, r) => some (Json.str (unquote raw.length raw), r)
    | none => none
  | _ + 1, 116 :: 114 :: 117 :: 101 :: rest => some (Json.bool true, rest)
  | _ + 1, 102 :: 97 :: 108 :: 115 :: 101 :: rest => some (Json.bool false, rest)
  | _ + 1, 110 :: 117 :: 108 :: 108 :: rest => some (Json.null, rest)
  | _ + 1, inp =>
    match scanNumber inp with
    | some r => some (Json.number, r)
    | none => none
/-- The elements of a non-empty array up to and including the closing bracket. -/
def parseElems : Nat → Bytes → Option (List Json × Bytes)
  | 0, _ => none
  | n + 1, inp =>
    match parseValue n inp with
    | none => none
    | some (v, r) =>
      match skipWs r with
      | 44 :: r1 =>
        match parseElems n (skipWs r1) with
        | some (vs, r2) => some (v :: vs, r2)
        | none => none
      | 93 :: r1 => some ([v], r1)
      | _ => none
/-- The members of a non-empty object up to and including the closing brace. -/
def parseMembers : Nat → Bytes → Option (List (Bytes × Json) × Bytes)
  | 0, _ => none
  | n + 1, 34 :: rest =>
    match scanString rest with
    | none => none
    | some (raw, r) =>
      match skipWs r with
      | 58 :: r1 =>
        match parseValue n (skipWs r1) with
        | none => none
        | some (v, r2) =>
          match skipWs r2 with
          | 44 :: r3 =>
            match parseMembers n (skipWs r3) with
            | some (kvs, r4) => some ((unquote raw.length raw, v) :: kvs, r4)
            | none => none
          | 125 :: r3 => some ([(unquote raw.length raw, v)], r3)
          | _ => none
      | _ => none
  | _ + 1, _ => none
end

/-- The whole input as one JSON text. -/
def parseJson (data : Bytes) : Option Json :=
  match parseValue (data.length + 1) (skipWs data) with
  | some (v, r) => if skipWs r = [] then some v else none
  | none => none

/-- Case folding of an object key (`bytes.EqualFold` against an ASCII field
name): ASCII capitals are lowered, U+212A folds to `k` and U+017F to `s`. -/
def foldName : Bytes → Bytes
  | [] => []
  | 226 :: 132 :: 170 :: rest => 107 :: foldName rest
  | 197 :: 191 :: rest => 115 :: foldName rest
  | b :: rest => (if 65 ≤ b ∧ b ≤ 90 then b + 32 else b) :: foldName rest

/-- A JSON value stored into a Go `string` that holds `cur`. -/
def decodeString (cur : Bytes) : Json → Option Bytes
  | Json.str s => some s
  | Json.null => some cur
  | _ => none

/-- The members of an object stored into a `FileLocation`, in order. -/
def decodeFileFields (cur : FileLocation) : List (Bytes × Json) → Option FileLocation
  | [] => some cur
  | (k, v) :: kvs =>
    if foldName k = lit "description" then
      match decodeString cur.Description v with
      | some s => decodeFileFields { cur with Description := s } kvs
      | none => none
    else if foldName k = lit "location" then
      match decodeString cur.Location v with
      | some s => decodeFileFields { cur with Location := s } kvs
      | none => none
    else decodeFileFields cur kvs

/-- A JSON value stored into a `FileLocation` that holds `cur`. -/
def decodeFileLocation (cur : FileLocation) : Json → Option FileLocation
  | Json.obj kvs => decodeFileFields cur kvs
  | Json.null => some cur
  | _ => none

/-- The members of an object stored into a `ReportingPlan`, in order. -/
def decodePlanFields (cur : ReportingPlan) : List (Bytes × Json) → Option ReportingPlan
  | [] => some cur
  | (k, v) :: kvs =>
    if foldName k = lit "plan_name" then
      match decodeString cur.PlanName v with
      | some s => decodePlanFields { cur with PlanName := s } kvs
      | none => none
    else if foldName k = lit "plan_id_type" then
      match decodeString cur.PlanIdType v with
      | some s => decodePlanFields { cur with PlanIdType := s } kvs
      | none => none
    else if foldName k = lit "plan_id" then
      match decodeString cur.PlanId v with
      | some s => decodePlanFields { cur with PlanId := s } kvs
      | none => none
    else if foldName k = lit "plan_market_type" then
      match decodeString cur.PlanMarketType v with
      | some s => decodePlanFields { cur with PlanMarketType := s } kvs
      | none => none
    else decodePlanFields cur kvs

/-- A JSON value stored into a `ReportingPlan` that holds `cur`. -/
def decodePlan (cur : ReportingPlan) : Json → Option ReportingPlan
  | Json.obj kvs => decodePlanFields cur kvs
  | Json.null => some cur
  | _ => none

/-- Every element decoded by `f`; one failing element fails the whole list. -/
def decodeAll {α : Type} (f : Json → Option α) : List Json → Option (List α)
  | [] => some []
  | x :: xs =>
    match f x, decodeAll f xs with
    | some a, some as => some (a :: as)
    | _, _ => none

/-- A JSON value stored into a slice, each element decoded by `f` into a zero
value; `null` makes the slice `nil`. -/
def decodeSlice {α : Type} (f : Json → Option α) : Json → Option (List α)
  | Json.arr xs => decodeAll f xs
  | Json.null => some []
  | _ => none

/-- The members of an object stored into a `ReportingStructure`, in order. -/
def decodeRecordFields (cur : ReportingStructure) :
    List (Bytes × Json) → Option ReportingStructure
  | [] => some cur
  | (k, v) :: kvs =>
    if foldName k = lit "reporting_plans" then
      match decodeSlice (decodePlan ⟨[], [], [], []⟩) v with
      | some ps => decodeRecordFields { cur with ReportingPlans := ps } kvs
      | none => none
    else if foldName k = lit "in_network_files" then
      match decodeSlice (decodeFileLocation ⟨[], []⟩) v with
      | some fs => decodeRecordFields { cur with InNetworkFiles := fs } kvs
      | none => none
    else if foldName k = lit "allowed_amount_file" then
      match decodeFileLocation cur.AllowedAmountFile v with
      | some f => decodeRecordFields { cur with AllowedAmountFile := f } kvs
      | none => none
    else decodeRecordFields cur kvs

/-- The call `json.Unmarshal(data, &record)` on the zero `record` of an
iteration: the decoded record, or `none` when Go returns an error. -/
def jsonUnmarshal (data : Bytes) : Option ReportingStructure :=
  match parseJson data with
  | some (Json.obj kvs) => decodeRecordFields ⟨[], [], ⟨[], []⟩⟩ kvs
  | some Json.null => some ⟨[], [], ⟨[], []⟩⟩
  | _ => none

/-! ## Notions used to state the properties -/

/-- The condition of line 70 on a plan. -/
def planQualifies (plan : ReportingPlan) : Bool :=
  MatchString planNyPattern plan.PlanName && MatchString planPpoPattern plan.PlanName

/-- The condition of line 74 on a file. -/
def fileQualifies (file : FileLocation) : Bool :=
  MatchString s3Pattern file.Location && MatchString fileNyPattern file.Location

/-- The string written for a file: its location and a newline. -/
def emitted (file : FileLocation) : Bytes := file.Location ++ lit "\n"

/-- An occurrence of `tok` in `name` with a whitespace byte right before it
and a whitespace byte right after it. -/
def BoundedToken (tok name : Bytes) : Prop :=
  ∃ pre a b post, name = pre ++ [a] ++ tok ++ [b] ++ post ∧ isSpace a = true ∧ isSpace b = true

/-- The lines that `ReadBytes` returns without error: the maximal pieces of
the input that end in a newline, each with its newline. `cur` holds the bytes
of the line being read. Bytes after the last newline belong to no line. -/
def linesFrom : Bytes → Bytes → List Bytes
  | _, [] => []
  | cur, b :: bs => if b = 10 then (cur ++ [b]) :: linesFrom [] bs else linesFrom (cur ++ [b]) bs

/-- The newline-terminated lines of an input, in order. -/
def lines (input : Bytes) : List Bytes := linesFrom [] input

/-- The record a line decodes to, when the line has the two bytes to drop. -/
def decodeLine (unmarshal : Bytes → Option ReportingStructure) (line : Bytes) :
    Option ReportingStructure :=
  if line.length < 2 then none else unmarshal (line.take (line.length - 2))

/-- The files of the qualifying (plan, file) pairs of a record: plans in record
order, and under each qualifying plan the qualifying files in record order. -/
def recordCandidates (record : ReportingStructure) : List FileLocation :=
  (record.ReportingPlans.filter planQualifies).flatMap
    (fun _ => record.InNetworkFiles.filter fileQualifies)

/-- The files of the qualifying pairs of a whole input, lines in input order. -/
def streamCandidates (unmarshal : Bytes → Option ReportingStructure) (input : Bytes) :
    List FileLocation :=
  (lines input).flatMap (fun line =>
    match decodeLine unmarshal line with
    | none => []
    | some record => recordCandidates record)

/-- The strings written in one pass over `files` with tracker `tracker`. -/
def passWrites (tracker : List (Bytes × Int)) (files : List FileLocation) : List Bytes :=
  (files.filter (fun f => fileQualifies f && !hasKey tracker f.Description)).map emitted

/-- The strings written while one record is processed with tracker `tracker`. -/
def recordWrites (tracker : List (Bytes × Int)) (record : ReportingStructure) : List Bytes :=
  (record.ReportingPlans.filter planQualifies).flatMap
    (fun _ => passWrites tracker record.InNetworkFiles)

/-- The strings written while one line is processed with tracker `tracker`. -/
def lineWrites (unmarshal : Bytes → Option ReportingStructure) (tracker : List (Bytes × Int))
    (line : Bytes) : List Bytes :=
  match decodeLine unmarshal line with
  | none => []
  | some record => recordWrites tracker record

/-- The lines that are processed: those before the first line shorter than two bytes. -/
def processed (ls : List Bytes) : List Bytes := ls.takeWhile (fun l => decide (2 ≤ l.length))

/-- The scenario line of the specification: one plan `Anthem NY PPO Plan`, one
file `f1` on the storage host, then the comma and the newline. -/
def ppoLine : Bytes :=
  lit "\x7b\"reporting_plans\":[\x7b\"plan_name\":\"Anthem NY PPO Plan\"\x7d],\"in_network_files\":[\x7b\"description\":\"f1\",\"location\":\"https://s3.amazonaws.com/bucket/NY-innetwork.json\"\x7d]\x7d,\n"

/-- The record that `ppoLine` decodes to. -/
def ppoRecord : ReportingStructure :=
  ⟨[⟨lit "Anthem NY PPO Plan", [], [], []⟩],
    [⟨lit "f1", lit "https://s3.amazonaws.com/bucket/NY-innetwork.json"⟩], ⟨[], []⟩⟩

/-- The scenario line with the plan name `Anthem NY HMO Plan`. -/
def hmoLine : Bytes :=
  lit "\x7b\"reporting_plans\":[\x7b\"plan_name\":\"Anthem NY HMO Plan\"\x7d],\"in_network_files\":[\x7b\"description\":\"f1\",\"location\":\"https://s3.amazonaws.com/bucket/NY-innetwork.json\"\x7d]\x7d,\n"

/-- The record that `hmoLine` decodes to. -/
def hmoRecord : ReportingStructure :=
  ⟨[⟨lit "Anthem NY HMO Plan", [], [], []⟩],
    [⟨lit "f1", lit "https://s3.amazonaws.com/bucket/NY-innetwork.json"⟩], ⟨[], []⟩⟩

/-- A second qualifying line that carries description `f1` with another location. -/
def ppoLineOther : Bytes :=
  lit "\x7b\"reporting_plans\":[\x7b\"plan_name\":\"Empire NY PPO Gold\"\x7d],\"in_network_files\":[\x7b\"description\":\"f1\",\"location\":\"https://s3.amazonaws.com/bucket/NY-other.json\"\x7d]\x7d,\n"

/-- The scenario line with a second qualifying plan before the same file. -/
def twoPlansLine : Bytes :=
  lit "\x7b\"reporting_plans\":[\x7b\"plan_name\":\"Anthem NY PPO Plan\"\x7d,\x7b\"plan_name\":\"Empire NY PPO Gold\"\x7d],\"in_network_files\":[\x7b\"description\":\"f1\",\"location\":\"https://s3.amazonaws.com/bucket/NY-innetwork.json\"\x7d]\x7d,\n"

/-- The record that `twoPlansLine` decodes to. -/
def twoPlansRecord : ReportingStructure :=
  ⟨[⟨lit "Anthem NY PPO Plan", [], [], []⟩, ⟨lit "Empire NY PPO Gold", [], [], []⟩],
    [⟨lit "f1", lit "https://s3.amazonaws.com/bucket/NY-innetwork.json"⟩], ⟨[], []⟩⟩

/-- One qualifying plan and two files with descriptions `f1` and `f2` that
have the same location. -/
def sameLocationLine : Bytes :=
  lit "\x7b\"reporting_plans\":[\x7b\"plan_name\":\"Anthem NY PPO Plan\"\x7d],\"in_network_files\":[\x7b\"description\":\"f1\",\"location\":\"https://s3.amazonaws.com/bucket/NY-innetwork.json\"\x7d,\x7b\"description\":\"f2\",\"location\":\"https://s3.amazonaws.com/bucket/NY-innetwork.json\"\x7d]\x7d,\n"

/-- The loop over the lines of the input, one `lineStep` per line. -/
def foldLines (unmarshal : Bytes → Option ReportingStructure) (readErr : Bool) :
    List Bytes → State → Exit × State
  | [], st => (if readErr then Exit.fatal else Exit.eof, st)
  | line :: rest, st =>
    match lineStep unmarshal st line with
    | none => (Exit.sliceBounds, st)
    | some st1 => foldLines unmarshal readErr rest st1


/-! ## The run with the results of the file operations

The loop again, with the result of every `outFile.WriteString` call: the
error of a write is printed and nothing else depends on it. A failed write
stores nothing in the file. -/

/-- The variables of `main` together with what happened on the output file:
the strings passed to `WriteString` in call order, the strings stored by the
calls that returned no error, and the number of `Error writing to file`
diagnostics printed. -/
structure WState where
  fileTracker : List (Bytes × Int)
  attempts : List Bytes
  written : List Bytes
  diagnostics : Nat
deriving DecidableEq, Repr

/-- Body of the loop over the files, lines 72 to 83; `fails k` tells whether
the `WriteString` call number `k` of the run returns an error. -/
def visitFileW (fails : Nat → Bool) (w : WState) (file : FileLocation) : WState :=
  let fileHasS3 := MatchString s3Pattern file.Location
  let fileHasNy := MatchString fileNyPattern file.Location
  if fileHasS3 && fileHasNy then
    if !hasKey w.fileTracker file.Description then
      let err := fails w.attempts.length
      { w with
        attempts := w.attempts ++ [file.Location ++ lit "\n"]
        written := if err then w.written else w.written ++ [file.Location ++ lit "\n"]
        diagnostics := if err then w.diagnostics + 1 else w.diagnostics }
    else
      w
  else
    w

/-- Body of the loop over the plans, lines 68 to 85. -/
def visitPlanW (fails : Nat → Bool) (files : List FileLocation) (w : WState)
    (plan : ReportingPlan) : WState :=
  let planHasNy := MatchString planNyPattern plan.PlanName
  let planHasPpo := MatchString planPpoPattern plan.PlanName
  if planHasNy && planHasPpo then
    files.foldl (visitFileW fails) w
  else
    w

/-- The two nested loops over a decoded record, lines 67 to 86. -/
def processRecordW (fails : Nat → Bool) (w : WState) (record : ReportingStructure) : WState :=
  record.ReportingPlans.foldl (visitPlanW fails record.InNetworkFiles) w

/-- Lines 63 to 86 for one line returned by the reader. -/
def lineStepW (unmarshal : Bytes → Option ReportingStructure) (fails : Nat → Bool) (w : WState)
    (line : Bytes) : Option WState :=
  if line.length < 2 then
    none
  else
    match unmarshal (line.take (line.length - 2)) with
    | none => some w
    | some record => some (processRecordW fails w record)

/-- The `for` loop of `main`, lines 51 to 87, at most `fuel` iterations. -/
def loopW (unmarshal : Bytes → Option ReportingStructure) (fails : Nat → Bool) (readErr : Bool) :
    Nat → Bytes → WState → Exit × WState
  | 0, _, w => (Exit.outOfFuel, w)
  | fuel + 1, input, w =>
    match ReadBytes 10 input with
    | (line, rest, true) =>
      match lineStepW unmarshal fails w line with
      | none => (Exit.sliceBounds, w)
      | some w1 => loopW unmarshal fails readErr fuel rest w1
    | (_, _, false) => (if readErr then Exit.fatal else Exit.eof, w)

/-- The loop started as `main` starts it. -/
def runW (unmarshal : Bytes → Option ReportingStructure) (fails : Nat → Bool) (readErr : Bool)
    (input : Bytes) : Exit × WState :=
  loopW unmarshal fails readErr (input.length + 1) input ⟨[], [], [], 0⟩

/-- What the run finds outside the program: whether `os.Create` and `os.Open`
return an error, the bytes of the input file, whether reading ends in an
error other than end-of-file, and which `WriteString` calls fail on an
output file that was created. -/
structure World where
  createFails : Bool
  openFails : Bool
  input : Bytes
  readErr : Bool
  writeFails : Nat → Bool

/-- How `main` ends: by the `return` of line 46 after `Error opening file`,
or out of the loop. -/
inductive MainResult where
  | openFailed
  | finished (exit : Exit) (w : WState)
deriving DecidableEq, Repr

/-- The function `main`. The error of `os.Create` (line 35) is overwritten by
the result of `os.Open` (line 43) and never examined; when `os.Create` failed
`outFile` is nil and every `WriteString` call returns an error. -/
def main (unmarshal : Bytes → Option ReportingStructure) (world : World) : MainResult :=
  if world.openFails then
    MainResult.openFailed
  else
    let r := runW unmarshal (fun k => world.createFails || world.writeFails k) world.readErr
      world.input
    MainResult.finished r.1 r.2

/-- The state of the loop without the results of the writes. -/
def WState.toState (w : WState) : State := ⟨w.fileTracker, w.attempts⟩

/-- The strings of `attempts` that are stored when the calls numbered from
`k` on fail as `fails` tells. -/
def stored (fails : Nat → Bool) : Nat → List Bytes → List Bytes
  | _, [] => []
  | k, s :: rest => if fails k then stored fails (k + 1) rest else s :: stored fails (k + 1) rest

/-- What is stored and what is reported add up to what was attempted. -/
def Accounted (fails : Nat → Bool) (w : WState) : Prop :=
  w.written = stored fails 0 w.attempts ∧
    w.diagnostics + w.written.length = w.attempts.length

/-! ## The explicit tokenizer of the design notes -/

/-- Splitting on whitespace: the maximal runs of bytes that are not
whitespace, in order; `cur` holds the token being read. -/
def fieldsFrom : Bytes → Bytes → List Bytes
  | cur, [] => if cur = [] then [] else [cur]
  | cur, b :: bs =>
    if isSpace b then
      if cur = [] then fieldsFrom [] bs else cur :: fieldsFrom [] bs
    else fieldsFrom (cur ++ [b]) bs

/-- The whitespace-separated tokens of a name. -/
def fields (name : Bytes) : List Bytes := fieldsFrom [] name

/-- The tokenizer check as the specification words it: split the name on
whitespace and test that `NY` and `PPO` are both among the tokens. -/
def tokenizerCheck (name : Bytes) : Bool :=
  decide (lit "NY" ∈ fields name) && decide (lit "PPO" ∈ fields name)

/-- A qualifying line whose location holds an escaped newline. -/
def newlineLocationLine : Bytes :=
  lit "\x7b\"reporting_plans\":[\x7b\"plan_name\":\"Anthem NY PPO Plan\"\x7d],\"in_network_files\":[\x7b\"description\":\"f1\",\"location\":\"https://s3.amazonaws.com/NY\\nx\"\x7d]\x7d,\n"

/-! ## Reading a JSON text byte by byte

A left-to-right reading that only tracks whether it stands inside a string
literal and how many brackets and braces are open. -/

/-- Outside a string literal, inside one, or right after a backslash inside one. -/
inductive Mode where
  | out
  | str
  | esc
deriving DecidableEq, Repr

/-- One byte read: the new mode and the new count of open brackets and braces. -/
def scanStep : Mode × Int → UInt8 → Mode × Int
  | (Mode.out, d), b =>
    if b = 34 then (Mode.str, d)
    else if b = 123 ∨ b = 91 then (Mode.out, d + 1)
    else if b = 125 ∨ b = 93 then (Mode.out, d - 1)
    else (Mode.out, d)
  | (Mode.str, d), b =>
    if b = 34 then (Mode.out, d)
    else if b = 92 then (Mode.esc, d)
    else (Mode.str, d)
  | (Mode.esc, d), _ => (Mode.str, d)

/-- The bytes of `x` read from the state `s`. -/
def scanFrom (s : Mode × Int) (x : Bytes) : Mode × Int := x.foldl scanStep s

/-- The input `inp` is some bytes followed by `r`, and reading these bytes
in mode `m1` ends in mode `m2` with the count changed by `delta`. -/
def Consumes (inp r : Bytes) (m1 : Mode) (delta : Int) (m2 : Mode) : Prop :=
  ∃ c, inp = c ++ r ∧ ∀ d : Int, scanFrom (m1, d) c = (m2, d + delta)

/-! ## Lemmas on the loop body -/

theorem lit_newline : lit "\n" = [10] := by decide

theorem visitFile_eq (st : State) (file : FileLocation) :
    visitFile st file =
      if fileQualifies file && !hasKey st.fileTracker file.Description then
        { st with outFile := st.outFile ++ [emitted file] }
      else st := by
  unfold visitFile fileQualifies emitted
  by_cases h1 : (MatchString s3Pattern file.Location && MatchString fileNyPattern file.Location) = true
  · by_cases h2 : hasKey st.fileTracker file.Description = true <;> simp [h1, h2]
  · simp [h1]

theorem foldl_visitFile (files : List FileLocation) (st : State) :
    files.foldl visitFile st =
      { st with outFile := st.outFile ++ passWrites st.fileTracker files } := by
  induction files generalizing st with
  | nil => simp [passWrites]
  | cons f fs ih =>
    rw [List.foldl_cons, ih, visitFile_eq]
    by_cases h : (fileQualifies f && !hasKey st.fileTracker f.Description) = true
    · simp [h, passWrites, List.filter_cons]
    · simp [h, passWrites, List.filter_cons]

theorem visitPlan_eq (files : List FileLocation) (st : State) (plan : ReportingPlan) :
    visitPlan files st plan =
      if planQualifies plan then
        { st with outFile := st.outFile ++ passWrites st.fileTracker files }
      else st := by
  unfold visitPlan planQualifies
  simp only [foldl_visitFile]

/-- The strings written while a record is processed with tracker `tracker`. -/
theorem foldl_visitPlan (files : List FileLocation) (plans : List ReportingPlan) (st : State) :
    plans.foldl (visitPlan files) st =
      { st with outFile := st.outFile ++
          (plans.filter planQualifies).flatMap (fun _ => passWrites st.fileTracker files) } := by
  induction plans generalizing st with
  | nil => simp
  | cons p ps ih =>
    rw [List.foldl_cons, ih, visitPlan_eq]
    by_cases h : planQualifies p = true
    · simp [h, List.filter_cons, List.append_assoc]
    · simp [h, List.filter_cons]

theorem processRecord_eq (st : State) (record : ReportingStructure) :
    processRecord st record =
      { st with outFile := st.outFile ++ recordWrites st.fileTracker record } := by
  unfold processRecord recordWrites
  exact foldl_visitPlan _ _ _

theorem lineStep_eq (unmarshal : Bytes → Option ReportingStructure) (st : State) (line : Bytes) :
    lineStep unmarshal st line =
      if line.length < 2 then none
      else some { st with outFile := st.outFile ++ lineWrites unmarshal st.fileTracker line } := by
  unfold lineStep lineWrites decodeLine
  by_cases h : line.length < 2
  · simp [h]
  · simp only [h, if_false]
    cases hu : unmarshal (line.take (line.length - 2)) with
    | none => simp
    | some r => simp [processRecord_eq]

theorem foldLines_eq (unmarshal : Bytes → Option ReportingStructure) (readErr : Bool)
    (ls : List Bytes) (st : State) :
    foldLines unmarshal readErr ls st =
      (if ls.all (fun l => decide (2 ≤ l.length)) then (if readErr then Exit.fatal else Exit.eof)
        else Exit.sliceBounds,
       { st with outFile := st.outFile ++
          (processed ls).flatMap (lineWrites unmarshal st.fileTracker) }) := by
  induction ls generalizing st with
  | nil => simp [foldLines, processed]
  | cons l ls ih =>
    rw [foldLines, lineStep_eq]
    by_cases h : l.length < 2
    · have h2 : ¬ 2 ≤ l.length := by omega
      simp [h, h2, processed, List.takeWhile_cons]
    · have h2 : 2 ≤ l.length := by omega
      simp [h, h2, ih, processed, List.takeWhile_cons, List.append_assoc]

/-! ## Lemmas on the reader -/

theorem linesFrom_eq (cur input : Bytes) :
    linesFrom cur input =
      match ReadBytes 10 input with
      | (line, rest, true) => (cur ++ line) :: linesFrom [] rest
      | (_, _, false) => [] := by
  induction input generalizing cur with
  | nil => simp [linesFrom, ReadBytes]
  | cons b bs ih =>
    by_cases h : b = 10
    · simp [linesFrom, ReadBytes, h]
    · rw [linesFrom, if_neg h, ih, ReadBytes, if_neg h]
      rcases hr : ReadBytes 10 bs with ⟨line, rest, found⟩
      cases found <;> simp

theorem ReadBytes_length (delim : UInt8) (input : Bytes) :
    (ReadBytes delim input).2.2 = true →
      (ReadBytes delim input).2.1.length < input.length := by
  induction input with
  | nil => simp [ReadBytes]
  | cons b bs ih =>
    by_cases h : b = delim
    · simp [ReadBytes, h]
    · simp only [ReadBytes, if_neg h, List.length_cons]
      intro hf
      have := ih hf
      omega

theorem loop_eq_foldLines (unmarshal : Bytes → Option ReportingStructure) (readErr : Bool)
    (fuel : Nat) (input : Bytes) (st : State) (h : input.length < fuel) :
    loop unmarshal readErr fuel input st = foldLines unmarshal readErr (lines input) st := by
  induction fuel generalizing input st with
  | zero => omega
  | succ n ih =>
    rw [loop, lines, linesFrom_eq]
    have hlen := ReadBytes_length 10 input
    rcases hr : ReadBytes 10 input with ⟨line, rest, found⟩
    rw [hr] at hlen
    cases found with
    | false => simp [foldLines]
    | true =>
      have hlt : rest.length < n := by
        have := hlen rfl
        simp only at this
        omega
      simp only [List.nil_append, foldLines]
      cases hs : lineStep unmarshal st line with
      | none => rfl
      | some st1 => exact ih rest st1 hlt

theorem run_eq (unmarshal : Bytes → Option ReportingStructure) (readErr : Bool) (input : Bytes) :
    run unmarshal readErr input =
      (if (lines input).all (fun l => decide (2 ≤ l.length)) then
          (if readErr then Exit.fatal else Exit.eof)
        else Exit.sliceBounds,
       ⟨[], (processed (lines input)).flatMap (lineWrites unmarshal [])⟩) := by
  unfold run
  rw [loop_eq_foldLines _ _ _ _ _ (Nat.lt_succ_self _), foldLines_eq]
  simp

/-! ## Lemmas on the patterns -/

theorem MatchString_iff (re : List Inst) (s : Bytes) :
    MatchString re s = true ↔ ∃ pre t, s = pre ++ t ∧ matchHere re t = true := by
  induction s with
  | nil =>
    constructor
    · intro h
      exact ⟨[], [], rfl, by simpa [MatchString] using h⟩
    · rintro ⟨pre, t, hs, ht⟩
      have ht0 : t = [] := (List.append_eq_nil.mp hs.symm).2
      subst ht0
      simpa [MatchString] using ht
  | cons b bs ih =>
    rw [MatchString, Bool.or_eq_true, ih]
    constructor
    · rintro (h | ⟨pre, t, hs, ht⟩)
      · exact ⟨[], b :: bs, rfl, h⟩
      · exact ⟨b :: pre, t, by simp [hs], ht⟩
    · rintro ⟨pre, t, hs, ht⟩
      cases pre with
      | nil =>
        left
        simp only [List.nil_append] at hs
        rw [hs]
        exact ht
      | cons c pre =>
        right
        simp only [List.cons_append, List.cons.injEq] at hs
        exact ⟨pre, t, hs.2, ht⟩

theorem matchHere_bytes (w : Bytes) (re : List Inst) (s : Bytes) :
    matchHere (w.map Inst.byte ++ re) s = true ↔ ∃ r, s = w ++ r ∧ matchHere re r = true := by
  induction w generalizing s with
  | nil => simp
  | cons c w ih =>
    cases s with
    | nil => simp [matchHere]
    | cons b bs =>
      have hstep : matchHere ((c :: w).map Inst.byte ++ re) (b :: bs) =
          (b == c && matchHere (w.map Inst.byte ++ re) bs) := rfl
      rw [hstep, Bool.and_eq_true, beq_iff_eq, ih]
      constructor
      · rintro ⟨hb, r, hr, hm⟩
        exact ⟨r, by simp [hb, hr], hm⟩
      · rintro ⟨r, hr, hm⟩
        simp only [List.cons_append, List.cons.injEq] at hr
        exact ⟨hr.1, r, hr.2, hm⟩

/-- A pattern of literal bytes matches exactly the inputs that contain them. -/
theorem MatchString_literal (w : Bytes) (s : Bytes) :
    MatchString (w.map Inst.byte) s = true ↔ w <:+: s := by
  rw [MatchString_iff]
  constructor
  · rintro ⟨pre, t, hs, ht⟩
    have h := (matchHere_bytes w [] t).mp (by simpa using ht)
    obtain ⟨r, hr, _⟩ := h
    exact ⟨pre, r, by simp [hs, hr]⟩
  · rintro ⟨pre, post, h⟩
    refine ⟨pre, w ++ post, by simp [← h], ?_⟩
    have := (matchHere_bytes w [] (w ++ post)).mpr ⟨post, rfl, by simp [matchHere]⟩
    simpa using this

/-- A pattern `\s w \s` matches exactly the inputs with a bounded occurrence of `w`. -/
theorem MatchString_bounded (w : Bytes) (s : Bytes) :
    MatchString (Inst.space :: (w.map Inst.byte ++ [Inst.space])) s = true ↔
      BoundedToken w s := by
  rw [MatchString_iff]
  constructor
  · rintro ⟨pre, t, hs, ht⟩
    cases t with
    | nil => simp [matchHere] at ht
    | cons a t =>
      simp only [matchHere, Inst.accepts, Bool.and_eq_true] at ht
      obtain ⟨ha, hm⟩ := ht
      obtain ⟨r, hr, hm2⟩ := (matchHere_bytes w [Inst.space] t).mp hm
      cases r with
      | nil => simp [matchHere] at hm2
      | cons b post =>
        simp only [matchHere, Inst.accepts, Bool.and_eq_true] at hm2
        exact ⟨pre, a, b, post, by simp [hs, hr], ha, hm2.1⟩
  · rintro ⟨pre, a, b, post, hs, ha, hb⟩
    refine ⟨pre, a :: (w ++ b :: post), by simp [hs], ?_⟩
    simp only [matchHere, Inst.accepts, ha, Bool.true_and]
    exact (matchHere_bytes w [Inst.space] (w ++ b :: post)).mpr
      ⟨b :: post, rfl, by simp [matchHere, Inst.accepts, hb]⟩

theorem planNyPattern_eq :
    planNyPattern = Inst.space :: ((lit "NY").map Inst.byte ++ [Inst.space]) := by decide

theorem planPpoPattern_eq :
    planPpoPattern = Inst.space :: ((lit "PPO").map Inst.byte ++ [Inst.space]) := by decide

theorem fileNyPattern_eq : fileNyPattern = (lit "NY").map Inst.byte := by decide

theorem s3Pattern_eq : s3Pattern = (lit "s3.amazonaws.com").map Inst.byte := by decide

theorem fileQualifies_iff (file : FileLocation) :
    fileQualifies file = true ↔
      lit "s3.amazonaws.com" <:+: file.Location ∧ lit "NY" <:+: file.Location := by
  unfold fileQualifies
  rw [Bool.and_eq_true, s3Pattern_eq, fileNyPattern_eq, MatchString_literal, MatchString_literal]

theorem planQualifies_iff (plan : ReportingPlan) :
    planQualifies plan = true ↔
      BoundedToken (lit "NY") plan.PlanName ∧ BoundedToken (lit "PPO") plan.PlanName := by
  unfold planQualifies
  rw [Bool.and_eq_true, planNyPattern_eq, planPpoPattern_eq, MatchString_bounded,
    MatchString_bounded]

/-! ## Lemmas relating the written strings to the qualifying pairs -/

theorem passWrites_nil (files : List FileLocation) :
    passWrites [] files = (files.filter fileQualifies).map emitted := by
  simp [passWrites, hasKey]

theorem recordWrites_nil (record : ReportingStructure) :
    recordWrites [] record = (recordCandidates record).map emitted := by
  simp [recordWrites, recordCandidates, passWrites_nil, List.map_flatMap]

theorem lineWrites_nil (unmarshal : Bytes → Option ReportingStructure) (line : Bytes) :
    lineWrites unmarshal [] line =
      (match decodeLine unmarshal line with
        | none => []
        | some record => recordCandidates record).map emitted := by
  unfold lineWrites
  cases decodeLine unmarshal line with
  | none => rfl
  | some r => exact recordWrites_nil r

theorem streamCandidates_map (unmarshal : Bytes → Option ReportingStructure) (input : Bytes) :
    (streamCandidates unmarshal input).map emitted =
      (lines input).flatMap (lineWrites unmarshal []) := by
  unfold streamCandidates
  rw [List.map_flatMap]
  congr 1
  funext line
  exact (lineWrites_nil unmarshal line).symm

theorem processed_flatMap_sublist {β : Type} (f : Bytes → List β) (ls : List Bytes) :
    ((processed ls).flatMap f).Sublist (ls.flatMap f) := by
  induction ls with
  | nil => simp [processed]
  | cons l ls ih =>
    by_cases h : 2 ≤ l.length
    · have hp : processed (l :: ls) = l :: processed ls := by
        simp [processed, List.takeWhile_cons, h]
      rw [hp, List.flatMap_cons, List.flatMap_cons]
      exact List.Sublist.append_left ih _
    · have hp : processed (l :: ls) = [] := by
        simp [processed, List.takeWhile_cons, h]
      rw [hp]
      exact List.nil_sublist _

theorem processed_of_all (ls : List Bytes) (h : ∀ l ∈ ls, 2 ≤ l.length) : processed ls = ls := by
  unfold processed
  rw [List.takeWhile_eq_self_iff]
  intro l hl
  simpa using h l hl

theorem mem_processed {l : Bytes} {ls : List Bytes} (h : l ∈ processed ls) : l ∈ ls :=
  (List.takeWhile_sublist _).subset h

/-- Whatever a line writes is the emitted string of a qualifying file of the
record it decodes to, under a qualifying plan of that record. -/
theorem mem_lineWrites (unmarshal : Bytes → Option ReportingStructure)
    (tracker : List (Bytes × Int)) (line w : Bytes) (h : w ∈ lineWrites unmarshal tracker line) :
    ∃ record, decodeLine unmarshal line = some record ∧
      ∃ plan ∈ record.ReportingPlans, planQualifies plan = true ∧
      ∃ file ∈ record.InNetworkFiles, fileQualifies file = true ∧ w = emitted file := by
  unfold lineWrites at h
  cases hd : decodeLine unmarshal line with
  | none => simp [hd] at h
  | some r =>
    simp only [hd, recordWrites, passWrites, List.mem_flatMap, List.mem_filter, List.mem_map,
      Bool.and_eq_true] at h
    obtain ⟨plan, ⟨hp, hpq⟩, file, ⟨hf, hfq, _⟩, hw⟩ := h
    exact ⟨r, rfl, plan, hp, hpq, file, hf, hfq, hw.symm⟩

theorem decodeLine_eq_some {unmarshal : Bytes → Option ReportingStructure} {line : Bytes}
    {record : ReportingStructure} :
    decodeLine unmarshal line = some record ↔
      2 ≤ line.length ∧ unmarshal (line.take (line.length - 2)) = some record := by
  unfold decodeLine
  by_cases h : line.length < 2
  · have h2 : ¬ 2 ≤ line.length := by omega
    simp [h, h2]
  · have h2 : 2 ≤ line.length := by omega
    simp [h, h2]

/-! ## Lemmas on the lines of a concatenated input -/

theorem linesFrom_append_newline (cur p x : Bytes) :
    linesFrom cur (p ++ [10] ++ x) = linesFrom cur (p ++ [10]) ++ lines x := by
  induction p generalizing cur with
  | nil => simp [linesFrom, lines]
  | cons b p ih =>
    have e1 : linesFrom cur (b :: p ++ [10] ++ x) =
        if b = 10 then (cur ++ [b]) :: linesFrom [] (p ++ [10] ++ x)
        else linesFrom (cur ++ [b]) (p ++ [10] ++ x) := rfl
    have e2 : linesFrom cur (b :: p ++ [10]) =
        if b = 10 then (cur ++ [b]) :: linesFrom [] (p ++ [10])
        else linesFrom (cur ++ [b]) (p ++ [10]) := rfl
    rw [e1, e2]
    by_cases h : b = 10
    · rw [if_pos h, if_pos h, ih]
      rfl
    · rw [if_neg h, if_neg h]
      exact ih _

/-- An input that ends at a line boundary splits the lines of what follows it. -/
theorem lines_append (pre x : Bytes) (hpre : pre = [] ∨ ∃ p, pre = p ++ [10]) :
    lines (pre ++ x) = lines pre ++ lines x := by
  rcases hpre with h | ⟨p, h⟩
  · subst h
    simp [lines, linesFrom]
  · subst h
    exact linesFrom_append_newline [] p x

theorem linesFrom_single (cur body : Bytes) (h : (10 : UInt8) ∉ body) :
    linesFrom cur (body ++ [10]) = [cur ++ body ++ [10]] := by
  induction body generalizing cur with
  | nil => simp [linesFrom]
  | cons b body ih =>
    have hb : b ≠ 10 := fun e => h (by simp [e])
    have hrest : (10 : UInt8) ∉ body := fun e => h (List.mem_cons_of_mem _ e)
    have e1 : linesFrom cur (b :: body ++ [10]) =
        if b = 10 then (cur ++ [b]) :: linesFrom [] (body ++ [10])
        else linesFrom (cur ++ [b]) (body ++ [10]) := rfl
    rw [e1, if_neg hb, ih _ hrest]
    simp

/-- The lines of an input with one more line inserted at a line boundary. -/
theorem lines_insert (pre body post : Bytes) (hpre : pre = [] ∨ ∃ p, pre = p ++ [10])
    (hbody : (10 : UInt8) ∉ body) :
    lines (pre ++ (body ++ [10]) ++ post) = lines pre ++ (body ++ [10]) :: lines post := by
  rw [List.append_assoc, lines_append pre _ hpre,
    lines_append (body ++ [10]) post (Or.inr ⟨body, rfl⟩)]
  simp [lines, linesFrom_single [] body hbody]

theorem foldLines_append (unmarshal : Bytes → Option ReportingStructure) (readErr : Bool)
    (xs ys : List Bytes) (st : State) :
    foldLines unmarshal readErr (xs ++ ys) st =
      match foldLines unmarshal false xs st with
      | (Exit.eof, st1) => foldLines unmarshal readErr ys st1
      | (e, st1) => (e, st1) := by
  induction xs generalizing st with
  | nil => simp [foldLines]
  | cons x xs ih =>
    simp only [List.cons_append, foldLines]
    cases lineStep unmarshal st x with
    | none => rfl
    | some st1 => exact ih st1

/-- The written strings are a sublist of the emitted strings of the qualifying pairs. -/
theorem written_sublist_of_candidates_aux (unmarshal : Bytes → Option ReportingStructure)
    (readErr : Bool) (input : Bytes) :
    (run unmarshal readErr input).2.outFile.Sublist
      ((streamCandidates unmarshal input).map (fun file => file.Location ++ lit "\n")) := by
  rw [run_eq]
  exact (streamCandidates_map unmarshal input) ▸ processed_flatMap_sublist _ _

/-! ## Properties of the run -/

set_option maxRecDepth 100000 in
/-- C1 (deduplication by description, first wins): evaluated on two qualifying
lines that both carry description `f1` with different locations, the run
writes both locations, not only the first one; `fileTracker` is empty at the
end, as at the start. -/
theorem run_same_description_twice :
    run jsonUnmarshal false (lit "[\n" ++ ppoLine ++ ppoLineOther ++ lit "]\n") =
      (Exit.eof, ⟨[], [lit "https://s3.amazonaws.com/bucket/NY-innetwork.json\n",
        lit "https://s3.amazonaws.com/bucket/NY-other.json\n"]⟩) := by
  decide

/-- C2 (emission of qualifying files): when a line of at least two bytes
decodes to a record, a plan of the record matches both plan patterns, a file of
the record has a location containing `s3.amazonaws.com` and `NY`, and the
file's description is not a key of `fileTracker`, then visiting the file
appends its location followed by one newline to the written strings, and this
string is among the strings that processing the line appends. -/
theorem qualifying_file_is_written (unmarshal : Bytes → Option ReportingStructure)
    (st : State) (line : Bytes) (record : ReportingStructure) (plan : ReportingPlan)
    (file : FileLocation)
    (hlen : 2 ≤ line.length)
    (hdec : unmarshal (line.take (line.length - 2)) = some record)
    (hplan : plan ∈ record.ReportingPlans)
    (hny : MatchString planNyPattern plan.PlanName = true)
    (hppo : MatchString planPpoPattern plan.PlanName = true)
    (hfile : file ∈ record.InNetworkFiles)
    (hs3 : lit "s3.amazonaws.com" <:+: file.Location)
    (hfny : lit "NY" <:+: file.Location)
    (hnew : hasKey st.fileTracker file.Description = false) :
    visitFile st file = { st with outFile := st.outFile ++ [file.Location ++ lit "\n"] } ∧
    ∃ ws, lineStep unmarshal st line = some { st with outFile := st.outFile ++ ws } ∧
      file.Location ++ lit "\n" ∈ ws := by
  have hfq : fileQualifies file = true := (fileQualifies_iff file).mpr ⟨hs3, hfny⟩
  have hpq : planQualifies plan = true := by simp [planQualifies, hny, hppo]
  constructor
  · rw [visitFile_eq]
    simp [hfq, hnew, emitted]
  · refine ⟨lineWrites unmarshal st.fileTracker line, ?_, ?_⟩
    · rw [lineStep_eq]
      simp [Nat.not_lt.mpr hlen]
    · have hd : decodeLine unmarshal line = some record := by
        simp [decodeLine, Nat.not_lt.mpr hlen, hdec]
      simp only [lineWrites, hd, recordWrites, List.mem_flatMap, List.mem_filter]
      refine ⟨plan, ⟨hplan, hpq⟩, ?_⟩
      simp only [passWrites, List.mem_map, List.mem_filter]
      exact ⟨file, ⟨hfile, by simp [hfq, hnew]⟩, rfl⟩

set_option maxRecDepth 100000 in
/-- The scenario of C2: the specification's line with plan `Anthem NY PPO Plan`
makes the output consist of the location of `f1` and a newline. -/
theorem qualifying_file_is_written_witness :
    (visitFile ⟨[], []⟩ ⟨lit "f1", lit "https://s3.amazonaws.com/bucket/NY-innetwork.json"⟩ =
        ⟨[], [] ++ [lit "https://s3.amazonaws.com/bucket/NY-innetwork.json" ++ lit "\n"]⟩ ∧
      ∃ ws, lineStep jsonUnmarshal ⟨[], []⟩ ppoLine = some ⟨[], [] ++ ws⟩ ∧
        lit "https://s3.amazonaws.com/bucket/NY-innetwork.json" ++ lit "\n" ∈ ws) ∧
    output (run jsonUnmarshal false ppoLine).2 =
      lit "https://s3.amazonaws.com/bucket/NY-innetwork.json\n" :=
  ⟨qualifying_file_is_written jsonUnmarshal ⟨[], []⟩ ppoLine ppoRecord
      ⟨lit "Anthem NY PPO Plan", [], [], []⟩
      ⟨lit "f1", lit "https://s3.amazonaws.com/bucket/NY-innetwork.json"⟩
      (by decide) (by decide) (by decide) (by decide) (by decide) (by decide)
      ⟨lit "https://", lit "/bucket/NY-innetwork.json", by decide⟩
      ⟨lit "https://s3.amazonaws.com/bucket/", lit "-innetwork.json", by decide⟩ (by decide),
    by decide⟩

/-- C3 (order preservation): the strings written by a run are a subsequence
of the emitted strings of all qualifying (plan, file) pairs, enumerated with
lines in input order, plans in record order and files in record order under
each plan. -/
theorem written_sublist_of_candidates (unmarshal : Bytes → Option ReportingStructure)
    (readErr : Bool) (input : Bytes) :
    (run unmarshal readErr input).2.outFile.Sublist
      ((streamCandidates unmarshal input).map (fun file => file.Location ++ lit "\n")) := by
  rw [run_eq]
  exact (streamCandidates_map unmarshal input) ▸ processed_flatMap_sublist _ _

/-- C4 (non-qualifying file exclusion): every string written by a run is the
location, followed by a newline, of a file of a record decoded from a line of
the input, and that location contains `s3.amazonaws.com` and contains `NY`;
visiting a file whose location lacks one of the two leaves the state as it is,
whatever plan is being visited. -/
theorem written_only_qualifying_files (unmarshal : Bytes → Option ReportingStructure)
    (readErr : Bool) (input : Bytes) :
    (∀ w ∈ (run unmarshal readErr input).2.outFile,
      ∃ line ∈ lines input, ∃ record,
        2 ≤ line.length ∧ unmarshal (line.take (line.length - 2)) = some record ∧
        ∃ file ∈ record.InNetworkFiles, w = file.Location ++ lit "\n" ∧
          lit "s3.amazonaws.com" <:+: file.Location ∧ lit "NY" <:+: file.Location) ∧
    (∀ (st : State) (file : FileLocation),
      ¬ (lit "s3.amazonaws.com" <:+: file.Location ∧ lit "NY" <:+: file.Location) →
        visitFile st file = st) := by
  constructor
  · intro w hw
    rw [run_eq] at hw
    simp only [List.mem_flatMap] at hw
    obtain ⟨line, hline, hw⟩ := hw
    obtain ⟨record, hd, _, _, _, file, hf, hfq, hwe⟩ := mem_lineWrites unmarshal [] line w hw
    obtain ⟨hlen, hdec⟩ := decodeLine_eq_some.mp hd
    obtain ⟨h1, h2⟩ := (fileQualifies_iff file).mp hfq
    exact ⟨line, mem_processed hline, record, hlen, hdec, file, hf, hwe, h1, h2⟩
  · intro st file hno
    rw [visitFile_eq]
    have : fileQualifies file = false := by
      cases h : fileQualifies file with
      | false => rfl
      | true => exact absurd ((fileQualifies_iff file).mp h) hno
    simp [this]

set_option maxRecDepth 100000 in
/-- The line of the scenario is the origin of the one string written for it. -/
theorem written_only_qualifying_files_witness :
    ∃ line ∈ lines ppoLine, ∃ record,
      2 ≤ line.length ∧ jsonUnmarshal (line.take (line.length - 2)) = some record ∧
      ∃ file ∈ record.InNetworkFiles,
        lit "https://s3.amazonaws.com/bucket/NY-innetwork.json\n" = file.Location ++ lit "\n" ∧
        lit "s3.amazonaws.com" <:+: file.Location ∧ lit "NY" <:+: file.Location :=
  (written_only_qualifying_files jsonUnmarshal false ppoLine).1
    (lit "https://s3.amazonaws.com/bucket/NY-innetwork.json\n") (by decide)

/-- C5 (plan-gate exclusion): when a line of at least two bytes decodes to a
record none of whose plans has a name matching both plan patterns, processing
the record, and so the line, leaves the written strings and the whole state as
they are, whatever the files of the record are. -/
theorem no_qualifying_plan_writes_nothing (unmarshal : Bytes → Option ReportingStructure)
    (st : State) (line : Bytes) (record : ReportingStructure)
    (hlen : 2 ≤ line.length)
    (hdec : unmarshal (line.take (line.length - 2)) = some record)
    (hnone : ∀ plan ∈ record.ReportingPlans,
      ¬ (MatchString planNyPattern plan.PlanName = true ∧
          MatchString planPpoPattern plan.PlanName = true)) :
    processRecord st record = st ∧ lineStep unmarshal st line = some st := by
  have hflt : record.ReportingPlans.filter planQualifies = [] := by
    rw [List.filter_eq_nil_iff]
    intro plan hp hq
    exact hnone plan hp (by simpa [planQualifies] using hq)
  have hrec : processRecord st record = st := by
    rw [processRecord_eq]
    simp [recordWrites, hflt]
  refine ⟨hrec, ?_⟩
  unfold lineStep
  simp [Nat.not_lt.mpr hlen, hdec, hrec]

set_option maxRecDepth 100000 in
/-- The scenario of C5: the line with plan `Anthem NY HMO Plan` writes nothing. -/
theorem no_qualifying_plan_writes_nothing_witness :
    (processRecord ⟨[], []⟩ hmoRecord = ⟨[], []⟩ ∧
      lineStep jsonUnmarshal ⟨[], []⟩ hmoLine = some ⟨[], []⟩) ∧
    run jsonUnmarshal false hmoLine = (Exit.eof, ⟨[], []⟩) :=
  ⟨no_qualifying_plan_writes_nothing jsonUnmarshal ⟨[], []⟩ hmoLine hmoRecord
      (by decide) (by decide) (by decide), by decide⟩

/-- C6 (malformed-line tolerance): a line of at least two bytes whose bytes
without the last two do not decode is skipped: its step returns the state it
was given (nothing written, `fileTracker` as before), and a run over an input
that has this line at a line boundary ends as the run over the input without
the line does, with the same strings written. -/
theorem undecodable_line_is_skipped (unmarshal : Bytes → Option ReportingStructure)
    (readErr : Bool) (pre body post : Bytes) (st : State)
    (hpre : pre = [] ∨ ∃ p, pre = p ++ [10])
    (hbody : (10 : UInt8) ∉ body)
    (hlen : 2 ≤ (body ++ [10]).length)
    (hbad : unmarshal ((body ++ [10]).take ((body ++ [10]).length - 2)) = none) :
    lineStep unmarshal st (body ++ [10]) = some st ∧
    run unmarshal readErr (pre ++ (body ++ [10]) ++ post) =
      run unmarshal readErr (pre ++ post) := by
  have hstep : ∀ st1 : State, lineStep unmarshal st1 (body ++ [10]) = some st1 := by
    intro st1
    unfold lineStep
    rw [if_neg (Nat.not_lt.mpr hlen), hbad]
  refine ⟨hstep st, ?_⟩
  unfold run
  rw [loop_eq_foldLines _ _ _ _ _ (Nat.lt_succ_self _),
    loop_eq_foldLines _ _ _ _ _ (Nat.lt_succ_self _),
    lines_insert pre body post hpre hbody, lines_append pre post hpre,
    foldLines_append, foldLines_append]
  rcases hf : foldLines unmarshal false (lines pre) ⟨[], []⟩ with ⟨e, st1⟩
  cases e <;> simp [foldLines, hstep]

set_option maxRecDepth 100000 in
/-- The structural line `[` before the scenario line: it is skipped, and the
run writes what it writes without it. -/
theorem undecodable_line_is_skipped_witness :
    lineStep jsonUnmarshal ⟨[], []⟩ (lit "[" ++ [10]) = some ⟨[], []⟩ ∧
    run jsonUnmarshal false ([] ++ (lit "[" ++ [10]) ++ ppoLine) =
      run jsonUnmarshal false ([] ++ ppoLine) :=
  undecodable_line_is_skipped jsonUnmarshal false [] (lit "[") ppoLine ⟨[], []⟩
    (Or.inl rfl) (by decide) (by decide) (by decide)

set_option maxRecDepth 100000 in
/-- C7 (no fault on any line): a line that is the newline byte alone makes the
step panic, whatever the decoder and the state are, and the run over the
input `[`, newline, newline ends by this panic, not by end-of-file or a read
error, and the scenario line after the empty line is never read. -/
theorem newline_only_line_panics :
    (∀ (unmarshal : Bytes → Option ReportingStructure) (st : State),
      lineStep unmarshal st (lit "\n") = none) ∧
    run jsonUnmarshal false (lit "[\n\n" ++ ppoLine ++ lit "]\n") =
      (Exit.sliceBounds, ⟨[], []⟩) := by
  constructor
  · intro unmarshal st
    rfl
  · decide

set_option maxRecDepth 100000 in
/-- C8 (output unaffected by the number of qualifying plans): the record of the
scenario with a second qualifying plan writes the location twice, and once
with only its first qualifying plan, both from the empty `fileTracker`; the
same holds for the runs over the two lines. -/
theorem two_qualifying_plans_write_twice :
    (processRecord ⟨[], []⟩ twoPlansRecord).outFile =
        [lit "https://s3.amazonaws.com/bucket/NY-innetwork.json\n",
         lit "https://s3.amazonaws.com/bucket/NY-innetwork.json\n"] ∧
    (processRecord ⟨[], []⟩ ppoRecord).outFile =
        [lit "https://s3.amazonaws.com/bucket/NY-innetwork.json\n"] ∧
    jsonUnmarshal (twoPlansLine.take (twoPlansLine.length - 2)) = some twoPlansRecord ∧
    (run jsonUnmarshal false twoPlansLine).2.outFile =
        [lit "https://s3.amazonaws.com/bucket/NY-innetwork.json\n",
         lit "https://s3.amazonaws.com/bucket/NY-innetwork.json\n"] ∧
    (run jsonUnmarshal false ppoLine).2.outFile =
        [lit "https://s3.amazonaws.com/bucket/NY-innetwork.json\n"] := by
  decide

/-- C9 (plan predicate): the condition of line 70 holds for a plan exactly
when its name has an occurrence of `NY` with a whitespace byte of the class
`\s` right before and right after it, and an occurrence of `PPO` with a
whitespace byte right before and right after it. The two tokens may come in
either order and share one whitespace byte; a token at the very start or at
the very end of the name does not count. -/
theorem plan_predicate (plan : ReportingPlan) :
    ((MatchString planNyPattern plan.PlanName && MatchString planPpoPattern plan.PlanName) = true ↔
      BoundedToken (lit "NY") plan.PlanName ∧ BoundedToken (lit "PPO") plan.PlanName) ∧
    (∀ (files : List FileLocation) (st : State),
      visitPlan files st plan =
        if MatchString planNyPattern plan.PlanName && MatchString planPpoPattern plan.PlanName
        then files.foldl visitFile st else st) ∧
    planQualifies ⟨lit "A NY PPO B", [], [], []⟩ = true ∧
    planQualifies ⟨lit "A PPO NY B", [], [], []⟩ = true ∧
    planQualifies ⟨lit "NY PPO B", [], [], []⟩ = false ∧
    planQualifies ⟨lit "A PPO NY", [], [], []⟩ = false ∧
    planQualifies ⟨lit "NY A PPO B NY", [], [], []⟩ = false := by
  refine ⟨planQualifies_iff plan, fun _ _ => rfl, ?_, ?_, ?_, ?_, ?_⟩ <;> decide

set_option maxRecDepth 100000 in
/-- C10 as stated fails: a line with one qualifying plan and two qualifying
files of different descriptions `f1` and `f2` that share one location makes
the run write that location twice, so two written entries are equal. -/
theorem same_location_written_twice :
    (run jsonUnmarshal false sameLocationLine).2.outFile =
        [lit "https://s3.amazonaws.com/bucket/NY-innetwork.json\n",
         lit "https://s3.amazonaws.com/bucket/NY-innetwork.json\n"] ∧
    ¬ (run jsonUnmarshal false sameLocationLine).2.outFile.Nodup := by
  decide

/-- C10 as amended: on an input none of whose lines is shorter than two bytes,
the location of every qualifying (plan, file) pair whose description is not
the description of an earlier qualifying pair is written, followed by a
newline, at least once. -/
theorem first_of_description_is_written (unmarshal : Bytes → Option ReportingStructure)
    (readErr : Bool) (input : Bytes) (before after : List FileLocation) (file : FileLocation)
    (hlines : ∀ line ∈ lines input, 2 ≤ line.length)
    (hcand : streamCandidates unmarshal input = before ++ file :: after)
    (_hfirst : ∀ g ∈ before, g.Description ≠ file.Description) :
    file.Location ++ lit "\n" ∈ (run unmarshal readErr input).2.outFile := by
  rw [run_eq]
  simp only
  rw [processed_of_all _ hlines, ← streamCandidates_map, hcand]
  simp [emitted]

set_option maxRecDepth 100000 in
/-- The first file of description `f1` in a two-line input is written. -/
theorem first_of_description_is_written_witness :
    lit "https://s3.amazonaws.com/bucket/NY-innetwork.json" ++ lit "\n" ∈
      (run jsonUnmarshal false (lit "[\n" ++ ppoLine ++ ppoLineOther)).2.outFile :=
  first_of_description_is_written jsonUnmarshal false (lit "[\n" ++ ppoLine ++ ppoLineOther) []
    [⟨lit "f1", lit "https://s3.amazonaws.com/bucket/NY-other.json"⟩]
    ⟨lit "f1", lit "https://s3.amazonaws.com/bucket/NY-innetwork.json"⟩
    (by decide) (by decide) (by decide)

/-! ## The run with write results against the run without them -/

theorem toState_visitFileW (fails : Nat → Bool) (w : WState) (file : FileLocation) :
    (visitFileW fails w file).toState = visitFile w.toState file := by
  unfold visitFileW visitFile WState.toState
  by_cases h1 :
      (MatchString s3Pattern file.Location && MatchString fileNyPattern file.Location) = true
  · by_cases h2 : hasKey w.fileTracker file.Description = true <;> simp [h1, h2]
  · simp [h1]

theorem toState_foldl_visitFileW (fails : Nat → Bool) (files : List FileLocation) (w : WState) :
    (files.foldl (visitFileW fails) w).toState = files.foldl visitFile w.toState := by
  induction files generalizing w with
  | nil => rfl
  | cons f fs ih => rw [List.foldl_cons, List.foldl_cons, ih, toState_visitFileW]

theorem toState_visitPlanW (fails : Nat → Bool) (files : List FileLocation) (w : WState)
    (plan : ReportingPlan) :
    (visitPlanW fails files w plan).toState = visitPlan files w.toState plan := by
  unfold visitPlanW visitPlan
  by_cases h :
      (MatchString planNyPattern plan.PlanName && MatchString planPpoPattern plan.PlanName) = true
  · simp only [h, if_true]
    exact toState_foldl_visitFileW fails files w
  · simp [h]

theorem toState_processRecordW (fails : Nat → Bool) (w : WState) (record : ReportingStructure) :
    (processRecordW fails w record).toState = processRecord w.toState record := by
  unfold processRecordW processRecord
  generalize record.ReportingPlans = plans
  induction plans generalizing w with
  | nil => rfl
  | cons p ps ih => rw [List.foldl_cons, List.foldl_cons, ih, toState_visitPlanW]

theorem toState_lineStepW (unmarshal : Bytes → Option ReportingStructure) (fails : Nat → Bool)
    (w : WState) (line : Bytes) :
    (lineStepW unmarshal fails w line).map WState.toState = lineStep unmarshal w.toState line := by
  unfold lineStepW lineStep
  by_cases h : line.length < 2
  · simp [h]
  · simp only [h, if_false]
    cases unmarshal (line.take (line.length - 2)) with
    | none => rfl
    | some r => simp [toState_processRecordW]

theorem toState_loopW (unmarshal : Bytes → Option ReportingStructure) (fails : Nat → Bool)
    (readErr : Bool) (fuel : Nat) (input : Bytes) (w : WState) :
    ((loopW unmarshal fails readErr fuel input w).1,
      (loopW unmarshal fails readErr fuel input w).2.toState) =
      loop unmarshal readErr fuel input w.toState := by
  induction fuel generalizing input w with
  | zero => rfl
  | succ n ih =>
    rw [loopW, loop]
    rcases hr : ReadBytes 10 input with ⟨line, rest, found⟩
    cases found with
    | false => rfl
    | true =>
      have hstep := toState_lineStepW unmarshal fails w line
      cases hw : lineStepW unmarshal fails w line with
      | none =>
        rw [hw] at hstep
        simp only [Option.map_none'] at hstep
        simp only [← hstep, hw]
      | some w1 =>
        rw [hw] at hstep
        simp only [Option.map_some'] at hstep
        simp only [← hstep, hw]
        exact ih rest w1

/-! ## The stored strings -/

theorem stored_append_one (fails : Nat → Bool) (k : Nat) (xs : List Bytes) (s : Bytes) :
    stored fails k (xs ++ [s]) =
      stored fails k xs ++ if fails (k + xs.length) then [] else [s] := by
  induction xs generalizing k with
  | nil => simp [stored]
  | cons x xs ih =>
    have hk : k + (x :: xs).length = k + 1 + xs.length := by simp; omega
    rw [hk]
    by_cases hf : fails k = true
    · simp [stored, hf, ih]
    · simp [stored, hf, ih]

theorem accounted_visitFileW (fails : Nat → Bool) (w : WState) (file : FileLocation)
    (h : Accounted fails w) : Accounted fails (visitFileW fails w file) := by
  by_cases h1 :
      (MatchString s3Pattern file.Location && MatchString fileNyPattern file.Location) = true
  · by_cases h2 : hasKey w.fileTracker file.Description = true
    · simpa [visitFileW, h1, h2] using h
    · obtain ⟨hw, hd⟩ := h
      have key : visitFileW fails w file =
          ⟨w.fileTracker, w.attempts ++ [file.Location ++ lit "\n"],
            if fails w.attempts.length then w.written
            else w.written ++ [file.Location ++ lit "\n"],
            if fails w.attempts.length then w.diagnostics + 1 else w.diagnostics⟩ := by
        simp [visitFileW, h1, h2]
      rw [key]
      unfold Accounted
      simp only [stored_append_one, Nat.zero_add, ← hw, List.length_append,
        List.length_singleton]
      by_cases hf : fails w.attempts.length = true
      · simp only [hf, if_true, List.append_nil, true_and]
        omega
      · simp only [hf, Bool.false_eq_true, if_false, true_and, List.length_append,
          List.length_singleton]
        omega
  · simpa [visitFileW, h1] using h

theorem accounted_foldl_visitFileW (fails : Nat → Bool) (files : List FileLocation) (w : WState)
    (h : Accounted fails w) : Accounted fails (files.foldl (visitFileW fails) w) := by
  induction files generalizing w with
  | nil => exact h
  | cons f fs ih => exact ih _ (accounted_visitFileW fails w f h)

theorem accounted_processRecordW (fails : Nat → Bool) (w : WState) (record : ReportingStructure)
    (h : Accounted fails w) : Accounted fails (processRecordW fails w record) := by
  unfold processRecordW
  generalize record.ReportingPlans = plans
  induction plans generalizing w with
  | nil => exact h
  | cons p ps ih =>
    rw [List.foldl_cons]
    apply ih
    unfold visitPlanW
    by_cases hq :
        (MatchString planNyPattern p.PlanName && MatchString planPpoPattern p.PlanName) = true
    · simp only [hq, if_true]
      exact accounted_foldl_visitFileW fails _ w h
    · simpa [hq] using h

theorem accounted_loopW (unmarshal : Bytes → Option ReportingStructure) (fails : Nat → Bool)
    (readErr : Bool) (fuel : Nat) (input : Bytes) (w : WState) (h : Accounted fails w) :
    Accounted fails (loopW unmarshal fails readErr fuel input w).2 := by
  induction fuel generalizing input w with
  | zero => exact h
  | succ n ih =>
    rw [loopW]
    rcases hr : ReadBytes 10 input with ⟨line, rest, found⟩
    cases found with
    | false => exact h
    | true =>
      simp only
      cases hw : lineStepW unmarshal fails w line with
      | none => exact h
      | some w1 =>
        simp only
        apply ih
        unfold lineStepW at hw
        by_cases hl : line.length < 2
        · simp [hl] at hw
        · simp only [hl, if_false] at hw
          cases hu : unmarshal (line.take (line.length - 2)) with
          | none =>
            rw [hu] at hw
            simp only [Option.some.injEq] at hw
            exact hw ▸ h
          | some r =>
            rw [hu] at hw
            simp only [Option.some.injEq] at hw
            exact hw ▸ accounted_processRecordW fails w r h

/-! ## Properties of `main` and of the run with write results -/

set_option maxRecDepth 100000 in
/-- C11 (open failure is fatal before processing): when `os.Open` fails `main`
returns before the loop, whatever else happens; but evaluated in a world
where `os.Create` fails and `os.Open` succeeds on the scenario line, `main`
runs the loop to end-of-file, reads and decodes the line and calls
`WriteString` with the location, which fails and is reported once. -/
theorem create_failure_not_checked :
    (∀ (unmarshal : Bytes → Option ReportingStructure) (world : World),
      world.openFails = true → main unmarshal world = MainResult.openFailed) ∧
    main jsonUnmarshal ⟨true, false, ppoLine, false, fun _ => false⟩ =
      MainResult.finished Exit.eof
        ⟨[], [lit "https://s3.amazonaws.com/bucket/NY-innetwork.json\n"], [], 1⟩ := by
  constructor
  · intro unmarshal world h
    simp [main, h]
  · decide

/-- C13 (deframing): for a line of at least two bytes the decoder is called on
the line without its last two bytes and on nothing else: the line is
`data` followed by two bytes, the step is decided by the result of the decoder
on `data`, and two decoders that agree on `data` give the same step. A line
`obj` followed by a comma and a newline hands exactly `obj` to the decoder. -/
theorem decoder_gets_line_without_last_two (unmarshal : Bytes → Option ReportingStructure)
    (st : State) (line : Bytes) (hlen : 2 ≤ line.length) :
    (∃ data a b, line = data ++ [a, b] ∧
      lineStep unmarshal st line =
        (match unmarshal data with
          | none => some st
          | some record => some (processRecord st record)) ∧
      ∀ other : Bytes → Option ReportingStructure, other data = unmarshal data →
        lineStep other st line = lineStep unmarshal st line) ∧
    (∀ obj : Bytes, line = obj ++ lit ",\n" →
      lineStep unmarshal st line =
        (match unmarshal obj with
          | none => some st
          | some record => some (processRecord st record))) := by
  have hstep : ∀ (u : Bytes → Option ReportingStructure) (data : Bytes) (a b : UInt8),
      lineStep u st (data ++ [a, b]) =
        (match u data with
          | none => some st
          | some record => some (processRecord st record)) := by
    intro u data a b
    unfold lineStep
    simp
  constructor
  · obtain ⟨data, a, b, hd⟩ : ∃ data a b, line = data ++ [a, b] := by
      have hsplit := (List.take_append_drop (line.length - 2) line).symm
      have hdl : (line.drop (line.length - 2)).length = 2 := by
        rw [List.length_drop]
        omega
      match hdrop : line.drop (line.length - 2), hdl with
      | [a, b], _ => exact ⟨line.take (line.length - 2), a, b, by rw [← hdrop]; exact hsplit⟩
    refine ⟨data, a, b, hd, ?_, ?_⟩
    · rw [hd]
      exact hstep unmarshal data a b
    · intro other ho
      rw [hd, hstep other data a b, hstep unmarshal data a b, ho]
  · intro obj ho
    rw [ho]
    exact hstep unmarshal obj 44 10

set_option maxRecDepth 100000 in
/-- The scenario line is its object followed by the comma and the newline. -/
theorem decoder_gets_line_without_last_two_witness :
    (∃ data a b, ppoLine = data ++ [a, b] ∧
      lineStep jsonUnmarshal ⟨[], []⟩ ppoLine =
        (match jsonUnmarshal data with
          | none => some ⟨[], []⟩
          | some record => some (processRecord ⟨[], []⟩ record)) ∧
      ∀ other : Bytes → Option ReportingStructure, other data = jsonUnmarshal data →
        lineStep other ⟨[], []⟩ ppoLine = lineStep jsonUnmarshal ⟨[], []⟩ ppoLine) ∧
    (∀ obj : Bytes, ppoLine = obj ++ lit ",\n" →
      lineStep jsonUnmarshal ⟨[], []⟩ ppoLine =
        (match jsonUnmarshal obj with
          | none => some ⟨[], []⟩
          | some record => some (processRecord ⟨[], []⟩ record))) :=
  decoder_gets_line_without_last_two jsonUnmarshal ⟨[], []⟩ ppoLine (by decide)

set_option maxRecDepth 100000 in
/-- C14 (seen-set tracking): visiting a file never changes `fileTracker`, and
after `main` has processed the scenario line, whose file `f1` qualifies and
was not seen, and has written its location, `fileTracker` is still empty:
`f1` is not a key of it. -/
theorem tracker_never_records :
    (∀ (fails : Nat → Bool) (w : WState) (file : FileLocation),
      (visitFileW fails w file).fileTracker = w.fileTracker) ∧
    main jsonUnmarshal ⟨false, false, ppoLine, false, fun _ => false⟩ =
      MainResult.finished Exit.eof
        ⟨[], [lit "https://s3.amazonaws.com/bucket/NY-innetwork.json\n"],
          [lit "https://s3.amazonaws.com/bucket/NY-innetwork.json\n"], 0⟩ ∧
    hasKey [] (lit "f1") = false := by
  refine ⟨?_, by decide, by decide⟩
  intro fails w file
  unfold visitFileW
  by_cases h1 :
      (MatchString s3Pattern file.Location && MatchString fileNyPattern file.Location) = true
  · by_cases h2 : hasKey w.fileTracker file.Description = true <;> simp [h1, h2]
  · simp [h1]

set_option maxRecDepth 100000 in
/-- C15 (write failure is non-fatal): whatever calls of `WriteString` fail, the
run ends as the run in which no write fails ends, and it calls `WriteString`
with the same strings in the same order, each once; the strings stored are
those of the calls that did not fail, and every failed call is reported once.
On the two lines of description `f1`, with the first write failing, the second
location is still attempted and stored. -/
theorem write_failure_is_not_fatal (unmarshal : Bytes → Option ReportingStructure)
    (fails : Nat → Bool) (readErr : Bool) (input : Bytes) :
    (runW unmarshal fails readErr input).1 = (run unmarshal readErr input).1 ∧
    (runW unmarshal fails readErr input).2.attempts = (run unmarshal readErr input).2.outFile ∧
    (runW unmarshal fails readErr input).2.written =
      stored fails 0 (runW unmarshal fails readErr input).2.attempts ∧
    (runW unmarshal fails readErr input).2.diagnostics +
        (runW unmarshal fails readErr input).2.written.length =
      (runW unmarshal fails readErr input).2.attempts.length ∧
    runW jsonUnmarshal (fun k => k == 0) false (ppoLine ++ ppoLineOther) =
      (Exit.eof, ⟨[], [lit "https://s3.amazonaws.com/bucket/NY-innetwork.json\n",
          lit "https://s3.amazonaws.com/bucket/NY-other.json\n"],
        [lit "https://s3.amazonaws.com/bucket/NY-other.json\n"], 1⟩) := by
  have hsim := toState_loopW unmarshal fails readErr (input.length + 1) input ⟨[], [], [], 0⟩
  have hacc := accounted_loopW unmarshal fails readErr (input.length + 1) input ⟨[], [], [], 0⟩
    ⟨rfl, rfl⟩
  have hrun : run unmarshal readErr input =
      ((runW unmarshal fails readErr input).1, (runW unmarshal fails readErr input).2.toState) :=
    hsim.symm
  refine ⟨by rw [hrun], by rw [hrun]; rfl, hacc.1, hacc.2, by decide⟩

/-- C16 (unused fields do not influence the result): two records with the same
sequence of plan names and the same sequence of in-network file descriptions
and locations are processed alike from every state: same strings written,
same `fileTracker`, whatever the other plan fields and `AllowedAmountFile`
hold. -/
theorem unused_fields_do_not_matter (st : State) (r1 r2 : ReportingStructure)
    (hplans : r1.ReportingPlans.map (fun p => p.PlanName) =
      r2.ReportingPlans.map (fun p => p.PlanName))
    (hfiles : r1.InNetworkFiles.map (fun f => (f.Description, f.Location)) =
      r2.InNetworkFiles.map (fun f => (f.Description, f.Location))) :
    processRecord st r1 = processRecord st r2 := by
  have hf : r1.InNetworkFiles = r2.InNetworkFiles := by
    have hinj : Function.Injective (fun f : FileLocation => (f.Description, f.Location)) := by
      intro a b hab
      cases a
      cases b
      simp only [Prod.mk.injEq] at hab
      simp [hab.1, hab.2]
    exact List.map_injective_iff.mpr hinj hfiles
  have hq : ∀ ps qs : List ReportingPlan,
      ps.map (fun p => p.PlanName) = qs.map (fun p => p.PlanName) →
      ∀ s : State, ps.foldl (visitPlan r1.InNetworkFiles) s =
        qs.foldl (visitPlan r1.InNetworkFiles) s := by
    intro ps
    induction ps with
    | nil =>
      intro qs h s
      cases qs with
      | nil => rfl
      | cons q qs => simp at h
    | cons p ps ih =>
      intro qs h s
      cases qs with
      | nil => simp at h
      | cons q qs =>
        simp only [List.map_cons, List.cons.injEq] at h
        have hv : visitPlan r1.InNetworkFiles s p = visitPlan r1.InNetworkFiles s q := by
          unfold visitPlan
          rw [h.1]
        rw [List.foldl_cons, List.foldl_cons, hv]
        exact ih qs h.2 _
  unfold processRecord
  rw [← hf]
  exact hq _ _ hplans st

/-- Two records that differ in plan id, id type, market type and allowed-amount
file only. -/
theorem unused_fields_do_not_matter_witness :
    processRecord ⟨[], []⟩
        ⟨[⟨lit "Anthem NY PPO Plan", lit "EIN", lit "1", lit "group"⟩],
          [⟨lit "f1", lit "https://s3.amazonaws.com/bucket/NY-innetwork.json"⟩],
          ⟨lit "a", lit "b"⟩⟩ =
      processRecord ⟨[], []⟩ ppoRecord :=
  unused_fields_do_not_matter ⟨[], []⟩ _ ppoRecord (by decide) (by decide)

theorem linesFrom_no_newline (cur t : Bytes) (h : (10 : UInt8) ∉ t) : linesFrom cur t = [] := by
  induction t generalizing cur with
  | nil => rfl
  | cons b t ih =>
    have hb : b ≠ 10 := fun e => h (by simp [e])
    have hrest : (10 : UInt8) ∉ t := fun e => h (List.mem_cons_of_mem _ e)
    have e1 : linesFrom cur (b :: t) =
        if b = 10 then (cur ++ [b]) :: linesFrom [] t else linesFrom (cur ++ [b]) t := rfl
    rw [e1, if_neg hb]
    exact ih _ hrest

/-- C18 (unterminated final fragment is ignored): when the input is a sequence
of newline-terminated lines followed by bytes without a newline, the run ends
as the run over the lines alone ends, with the same strings written. -/
theorem final_fragment_is_ignored (unmarshal : Bytes → Option ReportingStructure)
    (readErr : Bool) (s t : Bytes)
    (hs : s = [] ∨ ∃ p, s = p ++ [10])
    (ht : (10 : UInt8) ∉ t) :
    run unmarshal readErr (s ++ t) = run unmarshal readErr s ∧
    output (run unmarshal readErr (s ++ t)).2 = output (run unmarshal readErr s).2 := by
  have h : run unmarshal readErr (s ++ t) = run unmarshal readErr s := by
    rw [run_eq, run_eq, lines_append s t hs]
    have : lines t = [] := linesFrom_no_newline [] t ht
    rw [this, List.append_nil]
  exact ⟨h, by rw [h]⟩

set_option maxRecDepth 100000 in
/-- The scenario record without its newline after the line `[`: nothing is
written, although the same record with the newline is written. -/
theorem final_fragment_is_ignored_witness :
    (run jsonUnmarshal false (lit "[\n" ++ ppoLine.take (ppoLine.length - 1)) =
        run jsonUnmarshal false (lit "[\n") ∧
      output (run jsonUnmarshal false (lit "[\n" ++ ppoLine.take (ppoLine.length - 1))).2 =
        output (run jsonUnmarshal false (lit "[\n")).2) ∧
    output (run jsonUnmarshal false (lit "[\n" ++ ppoLine.take (ppoLine.length - 1))).2 = [] ∧
    output (run jsonUnmarshal false (lit "[\n" ++ ppoLine)).2 =
      lit "https://s3.amazonaws.com/bucket/NY-innetwork.json\n" :=
  ⟨final_fragment_is_ignored jsonUnmarshal false (lit "[\n")
      (ppoLine.take (ppoLine.length - 1)) (Or.inr ⟨lit "[", by decide⟩) (by decide),
    by decide, by decide⟩

/-! ## The tokenizer against the patterns -/

theorem fieldsFrom_skip (a : UInt8) (ha : isSpace a = true) (pre rest cur : Bytes) :
    ∃ front, fieldsFrom cur (pre ++ a :: rest) = front ++ fieldsFrom [] rest := by
  induction pre generalizing cur with
  | nil =>
    by_cases hc : cur = []
    · exact ⟨[], by simp [fieldsFrom, ha, hc]⟩
    · exact ⟨[cur], by simp [fieldsFrom, ha, hc]⟩
  | cons b pre ih =>
    have e1 : fieldsFrom cur (b :: pre ++ a :: rest) =
        if isSpace b then
          if cur = [] then fieldsFrom [] (pre ++ a :: rest)
          else cur :: fieldsFrom [] (pre ++ a :: rest)
        else fieldsFrom (cur ++ [b]) (pre ++ a :: rest) := rfl
    rw [e1]
    by_cases hb : isSpace b = true
    · obtain ⟨front, hf⟩ := ih []
      by_cases hc : cur = []
      · exact ⟨front, by simp [hb, hc, hf]⟩
      · exact ⟨cur :: front, by simp [hb, hc, hf]⟩
    · obtain ⟨front, hf⟩ := ih (cur ++ [b])
      exact ⟨front, by simp [hb, hf]⟩

theorem fieldsFrom_token (t : Bytes) (b : UInt8) (post cur : Bytes)
    (ht : ∀ c ∈ t, isSpace c = false) (hb : isSpace b = true) (hne : cur ++ t ≠ []) :
    fieldsFrom cur (t ++ b :: post) = (cur ++ t) :: fieldsFrom [] post := by
  induction t generalizing cur with
  | nil =>
    have hc : cur ≠ [] := by simpa using hne
    simp [fieldsFrom, hb, hc]
  | cons c t ih =>
    have hcs : isSpace c = false := ht c (List.mem_cons_self _ _)
    have e1 : fieldsFrom cur (c :: t ++ b :: post) =
        if isSpace c then
          if cur = [] then fieldsFrom [] (t ++ b :: post)
          else cur :: fieldsFrom [] (t ++ b :: post)
        else fieldsFrom (cur ++ [c]) (t ++ b :: post) := rfl
    rw [e1, hcs]
    simp only [Bool.false_eq_true, if_false]
    rw [ih (cur ++ [c]) (fun x hx => ht x (List.mem_cons_of_mem _ hx)) (by simp)]
    simp

/-- A bounded occurrence of a token is one of the whitespace-separated tokens. -/
theorem mem_fieldsFrom_of_bounded (tok s cur : Bytes) (hne : tok ≠ [])
    (htok : ∀ c ∈ tok, isSpace c = false) (h : BoundedToken tok s) :
    tok ∈ fieldsFrom cur s := by
  obtain ⟨pre, a, b, post, hs, ha, hb⟩ := h
  have hs2 : s = pre ++ a :: (tok ++ b :: post) := by simp [hs]
  obtain ⟨front, hf⟩ := fieldsFrom_skip a ha pre (tok ++ b :: post) cur
  rw [hs2, hf, fieldsFrom_token tok b post [] htok hb (by simpa using hne)]
  simp

theorem fieldsFrom_append_space (b : UInt8) (hb : isSpace b = true) (s cur : Bytes) :
    fieldsFrom cur (s ++ [b]) = fieldsFrom cur s := by
  induction s generalizing cur with
  | nil => by_cases hc : cur = [] <;> simp [fieldsFrom, hb, hc]
  | cons c s ih =>
    have e1 : fieldsFrom cur (c :: s ++ [b]) =
        if isSpace c then
          if cur = [] then fieldsFrom [] (s ++ [b]) else cur :: fieldsFrom [] (s ++ [b])
        else fieldsFrom (cur ++ [c]) (s ++ [b]) := rfl
    have e2 : fieldsFrom cur (c :: s) =
        if isSpace c then
          if cur = [] then fieldsFrom [] s else cur :: fieldsFrom [] s
        else fieldsFrom (cur ++ [c]) s := rfl
    rw [e1, e2, ih, ih]

theorem bounded_swap_front (tok x y : Bytes) (a a2 : UInt8) (ha2 : isSpace a2 = true)
    (h : BoundedToken tok (a :: x)) : BoundedToken tok (y ++ a2 :: x) := by
  obtain ⟨pre, a0, b, post, hs, ha0, hb⟩ := h
  cases pre with
  | nil =>
    simp only [List.nil_append, List.singleton_append, List.cons_append, List.cons.injEq] at hs
    exact ⟨y, a2, b, post, by simp [hs.2], ha2, hb⟩
  | cons p pre =>
    simp only [List.cons_append, List.cons.injEq] at hs
    exact ⟨y ++ a2 :: pre, a0, b, post, by simp [hs.2], ha0, hb⟩

/-- A whitespace-separated token has a bounded occurrence once the text is
padded with a space on each side. -/
theorem bounded_of_mem_fieldsFrom (tok s cur : Bytes) (hcur : ∀ c ∈ cur, isSpace c = false)
    (h : tok ∈ fieldsFrom cur s) : BoundedToken tok ([32] ++ (cur ++ s) ++ [32]) := by
  induction s generalizing cur with
  | nil =>
    by_cases hc : cur = []
    · simp [fieldsFrom, hc] at h
    · have : tok = cur := by simpa [fieldsFrom, hc] using h
      subst this
      exact ⟨[], 32, 32, [], by simp, by decide, by decide⟩
  | cons b bs ih =>
    have e1 : fieldsFrom cur (b :: bs) =
        if isSpace b then
          if cur = [] then fieldsFrom [] bs else cur :: fieldsFrom [] bs
        else fieldsFrom (cur ++ [b]) bs := rfl
    rw [e1] at h
    by_cases hb : isSpace b = true
    · have hrest : tok ∈ fieldsFrom [] bs → BoundedToken tok ([32] ++ (cur ++ b :: bs) ++ [32]) := by
        intro hm
        have h0 := ih [] (by simp) hm
        have h1 : BoundedToken tok (32 :: (bs ++ [32])) := by simpa using h0
        have h2 := bounded_swap_front tok (bs ++ [32]) ([32] ++ cur) 32 b hb h1
        simpa using h2
      by_cases hc : cur = []
      · simp only [hb, hc, if_true] at h
        exact hrest h
      · simp only [hb, hc, if_true, if_false, List.mem_cons] at h
        rcases h with h | h
        · subst h
          exact ⟨[], 32, b, bs ++ [32], by simp, by decide, hb⟩
        · exact hrest h
    · simp only [hb, Bool.false_eq_true, if_false] at h
      have hcur2 : ∀ c ∈ cur ++ [b], isSpace c = false := by
        intro c hc
        rcases List.mem_append.mp hc with h1 | h1
        · exact hcur c h1
        · simp only [List.mem_singleton] at h1
          subst h1
          simpa using hb
      have := ih (cur ++ [b]) hcur2 h
      simpa using this

/-- The tokens of a text are the tokens with a bounded occurrence in the text
padded with a space on each side. -/
theorem mem_fields_iff (tok s : Bytes) (hne : tok ≠ []) (htok : ∀ c ∈ tok, isSpace c = false) :
    tok ∈ fields s ↔ BoundedToken tok ([32] ++ s ++ [32]) := by
  constructor
  · intro h
    simpa using bounded_of_mem_fieldsFrom tok s [] (by simp) h
  · intro h
    have h1 := mem_fieldsFrom_of_bounded tok ([32] ++ s ++ [32]) [] hne htok h
    rw [fieldsFrom_append_space 32 (by decide)] at h1
    simpa [fields, fieldsFrom] using h1

/-- C12 as stated fails: in the name `NY PPO Plan` the token `NY` starts the
name; the tokenizer check accepts the name and the patterns of the program do
not. -/
theorem tokenizer_differs_at_name_start :
    tokenizerCheck (lit "NY PPO Plan") = true ∧
    (MatchString planNyPattern (lit "NY PPO Plan") &&
      MatchString planPpoPattern (lit "NY PPO Plan")) = false ∧
    ¬ (∀ name : Bytes,
        (MatchString planNyPattern name && MatchString planPpoPattern name) =
          tokenizerCheck name) := by
  refine ⟨by decide, by decide, ?_⟩
  intro h
  exact absurd (h (lit "NY PPO Plan")) (by decide)

/-- C12 as amended: a name accepted by the two plan patterns is accepted by the
tokenizer check, and the tokenizer check of a name is the pattern check of the
name with one space put before it and one after it. -/
theorem pattern_check_implies_tokenizer (name : Bytes) :
    ((MatchString planNyPattern name && MatchString planPpoPattern name) = true →
      tokenizerCheck name = true) ∧
    tokenizerCheck name =
      (MatchString planNyPattern (lit " " ++ name ++ lit " ") &&
        MatchString planPpoPattern (lit " " ++ name ++ lit " ")) := by
  have hny : lit "NY" ≠ [] ∧ ∀ c ∈ lit "NY", isSpace c = false := by decide
  have hppo : lit "PPO" ≠ [] ∧ ∀ c ∈ lit "PPO", isSpace c = false := by decide
  have hsp : lit " " = [32] := by decide
  constructor
  · intro h
    rw [Bool.and_eq_true, planNyPattern_eq, planPpoPattern_eq, MatchString_bounded,
      MatchString_bounded] at h
    unfold tokenizerCheck
    rw [Bool.and_eq_true, decide_eq_true_iff, decide_eq_true_iff]
    exact ⟨mem_fieldsFrom_of_bounded _ name [] hny.1 hny.2 h.1,
      mem_fieldsFrom_of_bounded _ name [] hppo.1 hppo.2 h.2⟩
  · rw [Bool.eq_iff_iff]
    unfold tokenizerCheck
    rw [Bool.and_eq_true, Bool.and_eq_true, decide_eq_true_iff, decide_eq_true_iff,
      planNyPattern_eq, planPpoPattern_eq, MatchString_bounded, MatchString_bounded, hsp,
      mem_fields_iff _ name hny.1 hny.2, mem_fields_iff _ name hppo.1 hppo.2]

/-- The name of the scenario is accepted by both checks. -/
theorem pattern_check_implies_tokenizer_witness :
    tokenizerCheck (lit "Anthem NY PPO Plan") = true :=
  (pattern_check_implies_tokenizer (lit "Anthem NY PPO Plan")).1 (by decide)

/-! ## The lines of the output -/

theorem lines_flatten (ws : List Bytes)
    (h : ∀ w ∈ ws, ∃ body, w = body ++ [10] ∧ (10 : UInt8) ∉ body) :
    lines ws.flatten = ws := by
  induction ws with
  | nil => rfl
  | cons w ws ih =>
    obtain ⟨body, hw, hb⟩ := h w (List.mem_cons_self _ _)
    rw [List.flatten_cons, hw, lines_append _ _ (Or.inr ⟨body, rfl⟩),
      ih (fun x hx => h x (List.mem_cons_of_mem _ hx))]
    simp [lines, linesFrom_single [] body hb]

set_option maxRecDepth 100000 in
/-- C17 as stated fails: a qualifying file whose location holds a newline is
written as one string, and the output splits into two lines at newline bytes,
neither of which is the location. -/
theorem location_with_newline_spans_two_lines :
    (run jsonUnmarshal false newlineLocationLine).2.outFile =
      [lit "https://s3.amazonaws.com/NY\nx\n"] ∧
    lines (output (run jsonUnmarshal false newlineLocationLine).2) =
      [lit "https://s3.amazonaws.com/NY\n", lit "x\n"] ∧
    lines (output (run jsonUnmarshal false newlineLocationLine).2) ≠
      (run jsonUnmarshal false newlineLocationLine).2.outFile := by
  decide

/-- C17 as amended: when no location of a qualifying (plan, file) pair of the
input holds a newline byte, the newline-terminated lines of the complete
output are exactly the written strings, one location and its newline each, in
order, and no bytes of the output are left outside these lines. -/
theorem output_lines_are_written_strings (unmarshal : Bytes → Option ReportingStructure)
    (readErr : Bool) (input : Bytes)
    (hloc : ∀ file ∈ streamCandidates unmarshal input, (10 : UInt8) ∉ file.Location) :
    lines (output (run unmarshal readErr input).2) = (run unmarshal readErr input).2.outFile ∧
    (lines (output (run unmarshal readErr input).2)).flatten =
      output (run unmarshal readErr input).2 ∧
    ∀ w ∈ (run unmarshal readErr input).2.outFile,
      ∃ file ∈ streamCandidates unmarshal input, w = file.Location ++ lit "\n" := by
  have hsub : ∀ w ∈ (run unmarshal readErr input).2.outFile,
      ∃ file ∈ streamCandidates unmarshal input, w = file.Location ++ lit "\n" := by
    intro w hw
    have hs := (written_sublist_of_candidates_aux unmarshal readErr input).subset hw
    simp only [List.mem_map] at hs
    obtain ⟨file, hf, he⟩ := hs
    exact ⟨file, hf, he.symm⟩
  have hlines : lines (output (run unmarshal readErr input).2) =
      (run unmarshal readErr input).2.outFile := by
    unfold output
    apply lines_flatten
    intro w hw
    obtain ⟨file, hf, he⟩ := hsub w hw
    exact ⟨file.Location, by rw [he, lit_newline], hloc file hf⟩
  refine ⟨hlines, ?_, hsub⟩
  rw [hlines]
  rfl

set_option maxRecDepth 100000 in
/-- The output of the scenario line is one line, the location. -/
theorem output_lines_are_written_strings_witness :
    lines (output (run jsonUnmarshal false ppoLine).2) =
      (run jsonUnmarshal false ppoLine).2.outFile ∧
    (lines (output (run jsonUnmarshal false ppoLine).2)).flatten =
      output (run jsonUnmarshal false ppoLine).2 ∧
    ∀ w ∈ (run jsonUnmarshal false ppoLine).2.outFile,
      ∃ file ∈ streamCandidates jsonUnmarshal ppoLine, w = file.Location ++ lit "\n" :=
  output_lines_are_written_strings jsonUnmarshal false ppoLine (by decide)

/-! ## The decoder accepts only texts with matched brackets -/

theorem Consumes.refl (r : Bytes) (m : Mode) : Consumes r r m 0 m :=
  ⟨[], rfl, fun d => by simp [scanFrom]⟩

theorem Consumes.trans {a b c : Bytes} {m1 m2 m3 : Mode} {d1 d2 : Int}
    (h1 : Consumes a b m1 d1 m2) (h2 : Consumes b c m2 d2 m3) :
    Consumes a c m1 (d1 + d2) m3 := by
  obtain ⟨x, hx, sx⟩ := h1
  obtain ⟨y, hy, sy⟩ := h2
  refine ⟨x ++ y, by rw [hx, hy, List.append_assoc], fun d => ?_⟩
  unfold scanFrom at *
  rw [List.foldl_append, sx, sy, Int.add_assoc]

theorem Consumes.cons (b : UInt8) (r : Bytes) (m1 m2 : Mode) (delta : Int)
    (h : ∀ d : Int, scanStep (m1, d) b = (m2, d + delta)) :
    Consumes (b :: r) r m1 delta m2 :=
  ⟨[b], rfl, fun d => by simp [scanFrom, h]⟩

/-- A byte that is no quote, bracket or brace leaves the reading outside strings as it is. -/
theorem Consumes.plain (b : UInt8) (r : Bytes)
    (h : b ≠ 34 ∧ b ≠ 123 ∧ b ≠ 91 ∧ b ≠ 125 ∧ b ≠ 93) :
    Consumes (b :: r) r Mode.out 0 Mode.out :=
  Consumes.cons b r _ _ 0 (fun d => by simp [scanStep, h.1, h.2.1, h.2.2.1, h.2.2.2.1, h.2.2.2.2])

/-- A byte inside a string that is no quote and no backslash. -/
theorem Consumes.inStr (b : UInt8) (r : Bytes) (h : b ≠ 34 ∧ b ≠ 92) :
    Consumes (b :: r) r Mode.str 0 Mode.str :=
  Consumes.cons b r _ _ 0 (fun d => by simp [scanStep, h.1, h.2])

theorem skipWs_consumes (inp : Bytes) : Consumes inp (skipWs inp) Mode.out 0 Mode.out := by
  induction inp with
  | nil => exact Consumes.refl _ _
  | cons b bs ih =>
    rw [skipWs]
    by_cases h : (b == 32 || b == 9 || b == 13 || b == 10) = true
    · rw [if_pos h]
      have hb : b ≠ 34 ∧ b ≠ 123 ∧ b ≠ 91 ∧ b ≠ 125 ∧ b ≠ 93 := by
        simp only [Bool.or_eq_true, beq_iff_eq] at h
        rcases h with ((h | h) | h) | h <;> subst h <;> decide
      simpa using (Consumes.plain b bs hb).trans ih
    · rw [if_neg h]
      exact Consumes.refl _ _

theorem hexVal_ne (b : UInt8) (h : (hexVal b).isSome = true) : b ≠ 34 ∧ b ≠ 92 := by
  constructor
  · intro e
    subst e
    exact absurd h (by decide)
  · intro e
    subst e
    exact absurd h (by decide)

theorem hex4_some {a b c d : UInt8} {x : Nat} (h : hex4 a b c d = some x) :
    (hexVal a).isSome = true ∧ (hexVal b).isSome = true ∧ (hexVal c).isSome = true ∧
      (hexVal d).isSome = true := by
  unfold hex4 at h
  cases ha : hexVal a <;> cases hb : hexVal b <;> cases hc : hexVal c <;>
    cases hd : hexVal d <;> simp [ha, hb, hc, hd] at h ⊢

theorem scanString_consumes (n : Nat) :
    ∀ (rest raw r : Bytes), rest.length ≤ n → scanString rest = some (raw, r) →
      Consumes rest r Mode.str 0 Mode.out := by
  induction n with
  | zero =>
    intro rest raw r hlen h
    have : rest = [] := List.length_eq_zero.mp (Nat.le_zero.mp hlen)
    subst this
    simp [scanString] at h
  | succ n ih =>
    intro rest raw r hlen h
    unfold scanString at h
    split at h
    · simp at h
    · simp only [Option.some.injEq, Prod.mk.injEq] at h
      rw [← h.2]
      exact Consumes.cons 34 _ _ _ 0 (fun d => by simp [scanStep])
    · rename_i a b c d rest2
      split at h
      · rename_i x raw2 r2 hx hs
        simp only [Option.some.injEq, Prod.mk.injEq] at h
        rw [← h.2]
        obtain ⟨ha, hb, hc, hd⟩ := hex4_some hx
        have hrest : Consumes rest2 r2 Mode.str 0 Mode.out :=
          ih rest2 raw2 r2 (by simp only [List.length_cons] at hlen; omega) hs
        have h1 : Consumes (92 :: 117 :: a :: b :: c :: d :: rest2)
            (117 :: a :: b :: c :: d :: rest2) Mode.str 0 Mode.esc :=
          Consumes.cons 92 _ _ _ 0 (fun d => by simp [scanStep])
        have h2 : Consumes (117 :: a :: b :: c :: d :: rest2) (a :: b :: c :: d :: rest2)
            Mode.esc 0 Mode.str :=
          Consumes.cons 117 _ _ _ 0 (fun d => by simp [scanStep])
        have h3 := Consumes.inStr a (b :: c :: d :: rest2) (hexVal_ne a ha)
        have h4 := Consumes.inStr b (c :: d :: rest2) (hexVal_ne b hb)
        have h5 := Consumes.inStr c (d :: rest2) (hexVal_ne c hc)
        have h6 := Consumes.inStr d rest2 (hexVal_ne d hd)
        simpa using
          (((((h1.trans h2).trans h3).trans h4).trans h5).trans h6).trans hrest
      · simp at h
    · rename_i e rest2 _
      split at h
      · split at h
        · rename_i raw2 r2 hs
          simp only [Option.some.injEq, Prod.mk.injEq] at h
          rw [← h.2]
          have hrest : Consumes rest2 r2 Mode.str 0 Mode.out :=
            ih rest2 raw2 r2 (by simp only [List.length_cons] at hlen; omega) hs
          have h1 : Consumes (92 :: e :: rest2) (e :: rest2) Mode.str 0 Mode.esc :=
            Consumes.cons 92 _ _ _ 0 (fun d => by simp [scanStep])
          have h2 : Consumes (e :: rest2) rest2 Mode.esc 0 Mode.str :=
            Consumes.cons e _ _ _ 0 (fun d => by simp [scanStep])
          simpa using (h1.trans h2).trans hrest
        · simp at h
      · simp at h
    · rename_i b rest2 hq _ _
      split at h
      · simp at h
      · rename_i hcond
        split at h
        · rename_i raw2 r2 hs
          simp only [Option.some.injEq, Prod.mk.injEq] at h
          rw [← h.2]
          have hrest : Consumes rest2 r2 Mode.str 0 Mode.out :=
            ih rest2 raw2 r2 (by simp only [List.length_cons] at hlen; omega) hs
          have hb92 : b ≠ 92 := by
            intro e
            apply hcond
            simp [e]
          have h1 := Consumes.inStr b rest2 ⟨fun e => hq e, hb92⟩
          simpa using h1.trans hrest
        · simp at h

theorem digit_plain (b : UInt8) (h : 48 ≤ b ∧ b ≤ 57) :
    b ≠ 34 ∧ b ≠ 123 ∧ b ≠ 91 ∧ b ≠ 125 ∧ b ≠ 93 := by
  refine ⟨?_, ?_, ?_, ?_, ?_⟩ <;> intro e <;> subst e <;> exact absurd h (by decide)

theorem skipDigits_consumes (inp : Bytes) :
    Consumes inp (skipDigits inp) Mode.out 0 Mode.out := by
  induction inp with
  | nil => exact Consumes.refl _ _
  | cons b bs ih =>
    rw [skipDigits]
    by_cases h : 48 ≤ b ∧ b ≤ 57
    · rw [if_pos h]
      simpa using (Consumes.plain b bs (digit_plain b h)).trans ih
    · rw [if_neg h]
      exact Consumes.refl _ _

theorem digits1_consumes (inp r : Bytes) (h : digits1 inp = some r) :
    Consumes inp r Mode.out 0 Mode.out := by
  cases inp with
  | nil => simp [digits1] at h
  | cons b bs =>
    rw [digits1] at h
    by_cases hb : 48 ≤ b ∧ b ≤ 57
    · rw [if_pos hb] at h
      simp only [Option.some.injEq] at h
      rw [← h]
      simpa using (Consumes.plain b bs (digit_plain b hb)).trans (skipDigits_consumes bs)
    · rw [if_neg hb] at h
      simp at h

theorem scanFracExp_consumes (inp r : Bytes) (h : scanFracExp inp = some r) :
    Consumes inp r Mode.out 0 Mode.out := by
  unfold scanFracExp at h
  have hfrac : ∀ mid, (match inp with
      | 46 :: r => digits1 r
      | r => some r) = some mid → Consumes inp mid Mode.out 0 Mode.out := by
    intro mid hm
    split at hm
    · rename_i r1
      simpa using (Consumes.plain 46 r1 (by decide)).trans (digits1_consumes r1 mid hm)
    · simp only [Option.some.injEq] at hm
      rw [← hm]
      exact Consumes.refl _ _
  simp only at h
  split at h
  · simp at h
  · rename_i e r1 hmid
    have h1 := hfrac _ hmid
    split at h
    · rename_i he
      have hplain : e ≠ 34 ∧ e ≠ 123 ∧ e ≠ 91 ∧ e ≠ 125 ∧ e ≠ 93 := by
        simp only [Bool.or_eq_true, beq_iff_eq] at he
        rcases he with he | he <;> subst he <;> decide
      have h2 := Consumes.plain e r1 hplain
      split at h
      · rename_i s r2
        split at h
        · rename_i hs
          have hsp : s ≠ 34 ∧ s ≠ 123 ∧ s ≠ 91 ∧ s ≠ 125 ∧ s ≠ 93 := by
            simp only [Bool.or_eq_true, beq_iff_eq] at hs
            rcases hs with hs | hs <;> subst hs <;> decide
          simpa using ((h1.trans h2).trans (Consumes.plain s r2 hsp)).trans
            (digits1_consumes r2 r h)
        · simpa using (h1.trans h2).trans (digits1_consumes (s :: r2) r h)
      · simp at h
    · simp only [Option.some.injEq] at h
      rw [← h]
      exact h1
  · rename_i hmid
    simp only [Option.some.injEq] at h
    rw [← h]
    exact hfrac _ hmid

theorem minus_consumes (inp : Bytes) :
    Consumes inp (match inp with
      | 45 :: r => r
      | r => r) Mode.out 0 Mode.out := by
  split
  · rename_i r1
    exact Consumes.plain 45 r1 (by decide)
  · exact Consumes.refl _ _

theorem scanNumber_consumes (inp r : Bytes) (h : scanNumber inp = some r) :
    Consumes inp r Mode.out 0 Mode.out := by
  have hbody := minus_consumes inp
  unfold scanNumber at h
  simp only at h
  split at h
  · rename_i r1 hb
    rw [hb] at hbody
    simpa using (hbody.trans (Consumes.plain 48 r1 (by decide))).trans
      (scanFracExp_consumes r1 r h)
  · rename_i b r1 _ hb
    rw [hb] at hbody
    split at h
    · rename_i hd
      have hplain := digit_plain b ⟨Nat.le_trans (by decide) hd.1, hd.2⟩
      simpa using ((hbody.trans (Consumes.plain b r1 hplain)).trans
        (skipDigits_consumes r1)).trans (scanFracExp_consumes _ r h)
    · simp at h
  · simp at h

theorem parseValue_zero (inp : Bytes) : parseValue 0 inp = none := by
  cases inp <;> rfl

theorem parseElems_zero (inp : Bytes) : parseElems 0 inp = none := by
  cases inp <;> rfl

theorem parseMembers_zero (inp : Bytes) : parseMembers 0 inp = none := by
  cases inp <;> rfl

theorem Consumes.opening (b : UInt8) (r : Bytes) (h : b = 123 ∨ b = 91) :
    Consumes (b :: r) r Mode.out 1 Mode.out :=
  Consumes.cons b r _ _ 1 (fun d => by rcases h with h | h <;> subst h <;> simp [scanStep])

theorem Consumes.closing (b : UInt8) (r : Bytes) (h : b = 125 ∨ b = 93) :
    Consumes (b :: r) r Mode.out (-1) Mode.out :=
  Consumes.cons b r _ _ (-1) (fun d => by
    rcases h with h | h <;> subst h <;> simp [scanStep] <;> rfl)

theorem Consumes.quote (r : Bytes) : Consumes (34 :: r) r Mode.out 0 Mode.str :=
  Consumes.cons 34 r _ _ 0 (fun d => by simp [scanStep])

set_option maxHeartbeats 4000000 in
/-- Every value, element list and member list that the decoder accepts leaves
the count of open brackets as the grammar says: unchanged after a value, one
less after the closing bracket of an array or object body. -/
theorem parse_consumes (n : Nat) :
    (∀ inp v r, parseValue n inp = some (v, r) → Consumes inp r Mode.out 0 Mode.out) ∧
    (∀ inp vs r, parseElems n inp = some (vs, r) → Consumes inp r Mode.out (-1) Mode.out) ∧
    (∀ inp kvs r, parseMembers n inp = some (kvs, r) →
      Consumes inp r Mode.out (-1) Mode.out) := by
  induction n with
  | zero =>
    refine ⟨?_, ?_, ?_⟩ <;> intro inp v r h
    · simp [parseValue_zero] at h
    · simp [parseElems_zero] at h
    · simp [parseMembers_zero] at h
  | succ n ih =>
    obtain ⟨ihv, ihe, ihm⟩ := ih
    refine ⟨?_, ?_, ?_⟩
    · intro inp v r h
      unfold parseValue at h
      split at h
      · simp at h
      · rename_i m rest heq
        obtain rfl : n = m := Nat.succ.inj heq
        have hws := skipWs_consumes rest
        split at h
        · rename_i r1 hs
          simp only [Option.some.injEq, Prod.mk.injEq] at h
          rw [hs] at hws
          rw [← h.2]
          simpa using ((Consumes.opening 123 rest (Or.inl rfl)).trans hws).trans
            (Consumes.closing 125 r1 (Or.inl rfl))
        · split at h
          · rename_i kvs r1 hm
            simp only [Option.some.injEq, Prod.mk.injEq] at h
            rw [← h.2]
            simpa using ((Consumes.opening 123 rest (Or.inl rfl)).trans hws).trans
              (ihm _ _ _ hm)
          · simp at h
      · rename_i m rest heq
        obtain rfl : n = m := Nat.succ.inj heq
        have hws := skipWs_consumes rest
        split at h
        · rename_i r1 hs
          simp only [Option.some.injEq, Prod.mk.injEq] at h
          rw [hs] at hws
          rw [← h.2]
          simpa using ((Consumes.opening 91 rest (Or.inr rfl)).trans hws).trans
            (Consumes.closing 93 r1 (Or.inr rfl))
        · split at h
          · rename_i xs r1 hm
            simp only [Option.some.injEq, Prod.mk.injEq] at h
            rw [← h.2]
            simpa using ((Consumes.opening 91 rest (Or.inr rfl)).trans hws).trans
              (ihe _ _ _ hm)
          · simp at h
      · rename_i m rest heq
        split at h
        · rename_i raw r1 hs
          simp only [Option.some.injEq, Prod.mk.injEq] at h
          rw [← h.2]
          simpa using (Consumes.quote rest).trans
            (scanString_consumes rest.length rest raw r1 (Nat.le_refl _) hs)
        · simp at h
      · rename_i m rest heq
        simp only [Option.some.injEq, Prod.mk.injEq] at h
        rw [← h.2]
        simpa using (((Consumes.plain 116 _ (by decide)).trans
          (Consumes.plain 114 _ (by decide))).trans
          (Consumes.plain 117 _ (by decide))).trans (Consumes.plain 101 rest (by decide))
      · rename_i m rest heq
        simp only [Option.some.injEq, Prod.mk.injEq] at h
        rw [← h.2]
        simpa using ((((Consumes.plain 102 _ (by decide)).trans
          (Consumes.plain 97 _ (by decide))).trans
          (Consumes.plain 108 _ (by decide))).trans
          (Consumes.plain 115 _ (by decide))).trans (Consumes.plain 101 rest (by decide))
      · rename_i m rest heq
        simp only [Option.some.injEq, Prod.mk.injEq] at h
        rw [← h.2]
        simpa using (((Consumes.plain 110 _ (by decide)).trans
          (Consumes.plain 117 _ (by decide))).trans
          (Consumes.plain 108 _ (by decide))).trans (Consumes.plain 108 rest (by decide))
      · split at h
        · rename_i r1 hs
          simp only [Option.some.injEq, Prod.mk.injEq] at h
          rw [← h.2]
          exact scanNumber_consumes _ _ hs
        · simp at h
    · intro inp vs r h
      unfold parseElems at h
      split at h
      · simp at h
      · rename_i v r0 hv
        have h1 := ihv _ _ _ hv
        have hws := skipWs_consumes r0
        split at h
        · rename_i r1 hs
          rw [hs] at hws
          split at h
          · rename_i vs2 r2 he
            simp only [Option.some.injEq, Prod.mk.injEq] at h
            rw [← h.2]
            simpa using (((h1.trans hws).trans (Consumes.plain 44 r1 (by decide))).trans
              (skipWs_consumes r1)).trans (ihe _ _ _ he)
          · simp at h
        · rename_i r1 hs
          rw [hs] at hws
          simp only [Option.some.injEq, Prod.mk.injEq] at h
          rw [← h.2]
          simpa using (h1.trans hws).trans (Consumes.closing 93 r1 (Or.inr rfl))
        · simp at h
    · intro inp kvs r h
      unfold parseMembers at h
      split at h
      · simp at h
      · rename_i m rest heq
        obtain rfl : n = m := Nat.succ.inj heq
        split at h
        · simp at h
        · rename_i raw r0 hs0
          have h0 := (Consumes.quote rest).trans
            (scanString_consumes rest.length rest raw r0 (Nat.le_refl _) hs0)
          have hws0 := skipWs_consumes r0
          split at h
          · rename_i r1 hs1
            rw [hs1] at hws0
            have hc := Consumes.plain 58 r1 (by decide)
            have hws1 := skipWs_consumes r1
            split at h
            · simp at h
            · rename_i v r2 hv
              have hval := ihv _ _ _ hv
              have hws2 := skipWs_consumes r2
              have hpre := (((h0.trans hws0).trans hc).trans hws1).trans hval
              split at h
              · rename_i r3 hs3
                rw [hs3] at hws2
                split at h
                · rename_i kvs2 r4 hm
                  simp only [Option.some.injEq, Prod.mk.injEq] at h
                  rw [← h.2]
                  simpa using (((hpre.trans hws2).trans
                    (Consumes.plain 44 r3 (by decide))).trans (skipWs_consumes r3)).trans
                    (ihm _ _ _ hm)
                · simp at h
              · rename_i r3 hs3
                rw [hs3] at hws2
                simp only [Option.some.injEq, Prod.mk.injEq] at h
                rw [← h.2]
                simpa using (hpre.trans hws2).trans (Consumes.closing 125 r3 (Or.inl rfl))
              · simp at h
          · simp at h
      · simp at h

/-- A text that the decoder accepts has matched brackets and braces and ends
outside string literals. -/
theorem parseJson_scan (data : Bytes) (v : Json) (h : parseJson data = some v) :
    scanFrom (Mode.out, 0) data = (Mode.out, 0) := by
  unfold parseJson at h
  split at h
  · rename_i v1 r hv
    split at h
    · rename_i hr
      have h1 := skipWs_consumes data
      have h2 := (parse_consumes (data.length + 1)).1 _ _ _ hv
      have h3 := skipWs_consumes r
      rw [hr] at h3
      obtain ⟨c, hc, hscan⟩ := (h1.trans h2).trans h3
      rw [List.append_nil] at hc
      rw [hc]
      simpa using hscan 0
    · simp at h
  · simp at h

/-- A text that the decoder accepts is not accepted without its closing brace. -/
theorem parseJson_truncated (body : Bytes) (v : Json) (h : parseJson (body ++ [125]) = some v) :
    parseJson body = none := by
  cases hb : parseJson body with
  | none => rfl
  | some v1 =>
    have h1 := parseJson_scan _ _ h
    have h2 := parseJson_scan _ _ hb
    unfold scanFrom at h1 h2
    rw [List.foldl_append, h2] at h1
    simp [scanStep] at h1

/-- C19 (an object line without a trailing comma is dropped): for a line made
of a complete JSON text that ends in a closing brace and of the newline, the
decoder is handed the text without its closing brace, rejects it, and the
step returns the state it was given: nothing is written for the line. -/
theorem line_without_comma_is_dropped (st : State) (body : Bytes)
    (hobj : (parseJson (body ++ lit "\x7d")).isSome = true) :
    (body ++ lit "\x7d" ++ lit "\n").take ((body ++ lit "\x7d" ++ lit "\n").length - 2) = body ∧
    jsonUnmarshal body = none ∧
    lineStep jsonUnmarshal st (body ++ lit "\x7d" ++ lit "\n") = some st := by
  have hb : lit "\x7d" = [125] := by decide
  have hn : lit "\n" = [10] := by decide
  rw [hb, hn] at *
  have htake : (body ++ [125] ++ [10]).take ((body ++ [125] ++ [10]).length - 2) = body := by
    simp
  obtain ⟨v, hv⟩ := Option.isSome_iff_exists.mp hobj
  have hnone : jsonUnmarshal body = none := by
    unfold jsonUnmarshal
    rw [parseJson_truncated body v hv]
  refine ⟨htake, hnone, ?_⟩
  unfold lineStep
  rw [htake, hnone]
  simp

set_option maxRecDepth 100000 in
/-- The scenario record as the last object line of a file, without the comma:
nothing is written for it, although the same record followed by a comma is
written. -/
theorem line_without_comma_is_dropped_witness :
    ((ppoLine.take (ppoLine.length - 3) ++ lit "\x7d" ++ lit "\n").take
          ((ppoLine.take (ppoLine.length - 3) ++ lit "\x7d" ++ lit "\n").length - 2) =
        ppoLine.take (ppoLine.length - 3) ∧
      jsonUnmarshal (ppoLine.take (ppoLine.length - 3)) = none ∧
      lineStep jsonUnmarshal ⟨[], []⟩ (ppoLine.take (ppoLine.length - 3) ++ lit "\x7d" ++ lit "\n") =
        some ⟨[], []⟩) ∧
    jsonUnmarshal (ppoLine.take (ppoLine.length - 3) ++ lit "\x7d") = some ppoRecord ∧
    run jsonUnmarshal false
        (lit "[\n" ++ (ppoLine.take (ppoLine.length - 3) ++ lit "\x7d" ++ lit "\n") ++ lit "]\n") =
      (Exit.eof, ⟨[], []⟩) :=
  ⟨line_without_comma_is_dropped ⟨[], []⟩ (ppoLine.take (ppoLine.length - 3)) (by decide),
    by decide, by decide⟩

end Main
